import Mathlib

/-!
Verification of the suffine suffix-array library.

Texts are modelled as lists of byte values (`List Nat`); `&str` values are
byte lists assumed valid UTF-8 where a claim requires it.  Machine `u32`
values are `Nat` with explicit bounds where they matter.  Fallible or
panicking code paths return `Option` / `Except` (`none` models a panic).
-/

namespace Suffine

/-- Largest value of a `u32`. -/
def u32Max : Nat := 4294967295

/-- Error kind, from src/error.rs (the `Io` variant carries no content we model). -/
inductive SufError where
  | ioErr : SufError
  | invalidOption : String → SufError
  | textTooLong : SufError
  | invalidIndex : SufError
deriving DecidableEq, Repr

/-- UTF-8 continuation byte test: top two bits are `10`. -/
def contByte (b : Nat) : Bool := decide (128 ≤ b) && decide (b < 192)

/-- Rust `str::is_char_boundary`: true at 0 and at `len`; inside, true iff the
byte is not a continuation byte; false beyond `len`. -/
def isCharBoundary (s : List Nat) (i : Nat) : Bool :=
  if i = 0 then true
  else if i < s.length then !contByte (s.getD i 0)
  else decide (i = s.length)

/-- Byte length of the UTF-8 sequence led by byte `b` (meaningful for lead bytes). -/
def charLen (b : Nat) : Nat :=
  if b < 128 then 1 else if b < 224 then 2 else if b < 240 then 3 else 4

/-- Fuelled UTF-8 chunker: splits a byte list into code-point chunks, `none` if
the bytes are not well formed (lead byte classes and continuation-byte checks;
each chunk is a lead byte followed by `charLen - 1` continuation bytes). -/
def chunksF : Nat → List Nat → Option (List (List Nat))
  | _, [] => some []
  | 0, _ :: _ => none
  | fuel + 1, b :: rest =>
    if contByte b then none
    else
      let k := charLen b - 1
      if (rest.take k).length = k ∧ (rest.take k).all contByte then
        (chunksF fuel (rest.drop k)).map (fun cs => (b :: rest.take k) :: cs)
      else none

/-- Code-point chunks of a byte list (`none` when not valid UTF-8). -/
def chunks (s : List Nat) : Option (List (List Nat)) := chunksF s.length s

/-- Validity of a byte list as UTF-8, as accepted by the chunker. -/
def ValidUtf8 (s : List Nat) : Prop := (chunks s).isSome = true

instance (s : List Nat) : Decidable (ValidUtf8 s) :=
  inferInstanceAs (Decidable ((chunks s).isSome = true))

/-- A well-formed single chunk: nonempty, lead byte head, continuation tail of
the length announced by the head. -/
def ChunkOK (c : List Nat) : Prop :=
  match c with
  | [] => False
  | b :: rest => contByte b = false ∧ rest.all contByte = true ∧ rest.length = charLen b - 1

instance (c : List Nat) : Decidable (ChunkOK c) :=
  match c with
  | [] => inferInstanceAs (Decidable False)
  | _ :: _ => inferInstanceAs (Decidable (_ ∧ _ ∧ _))

/-- Byte-wise three-way comparison of byte lists, as Rust compares `[u8]` / `str`. -/
def cmpBytes : List Nat → List Nat → Ordering
  | [], [] => Ordering.eq
  | [], _ :: _ => Ordering.lt
  | _ :: _, [] => Ordering.gt
  | a :: as_, b :: bs => if a < b then Ordering.lt else if b < a then Ordering.gt else cmpBytes as_ bs

/-- Lexicographic strict order on byte lists. -/
def lexLt (a b : List Nat) : Prop := cmpBytes a b = Ordering.lt

/-- Lexicographic order on byte lists (reflexive). -/
def lexLe (a b : List Nat) : Prop := cmpBytes a b ≠ Ordering.gt

instance (a b : List Nat) : Decidable (lexLt a b) :=
  inferInstanceAs (Decidable (cmpBytes a b = Ordering.lt))
instance (a b : List Nat) : Decidable (lexLe a b) :=
  inferInstanceAs (Decidable (cmpBytes a b ≠ Ordering.gt))

/-- Rust `s.starts_with(q)`: `q` is a byte prefix of `s`. -/
def startsWithB (s q : List Nat) : Bool :=
  match s, q with
  | _, [] => true
  | [], _ :: _ => false
  | a :: as_, b :: bs => a == b && startsWithB as_ bs

/-- The byte slice `s[i..j]` (meaningful for `i ≤ j ≤ len`). -/
def sliceB (s : List Nat) (i j : Nat) : List Nat := (s.take j).drop i

/-- Rust `str::find`: index of the first occurrence of `needle` in `hay`. -/
def findSub : List Nat → List Nat → Option Nat
  | [], needle => if needle.length = 0 then some 0 else none
  | a :: rest, needle =>
    if startsWithB (a :: rest) needle then some 0 else (findSub rest needle).map (· + 1)

/-- Substring containment of byte lists. -/
def containsSub (hay needle : List Nat) : Bool := (findSub hay needle).isSome

/-- Rust `str::contains(char)` for a character given by its UTF-8 chunk `c`:
true iff `c` is one of the string's code points (for valid UTF-8 this is
byte-substring search of the encoded character). -/
def containsChar (q c : List Nat) : Bool :=
  match chunks q with
  | some cs => decide (c ∈ cs)
  | none => false

/-- Suffix order used by the in-memory sorter: index `i` before `j` iff the
suffix at `i` is lexicographically no greater. -/
def sufLe (s : List Nat) (i j : Nat) : Prop := lexLe (s.drop i) (s.drop j)

instance (s : List Nat) : DecidableRel (sufLe s) :=
  fun i j => inferInstanceAs (Decidable (lexLe (s.drop i) (s.drop j)))

/-- Modelled from the spec: the in-memory suffix sorter (the external `suffix`
crate's `SuffixTable`, a black box per the spec) returns the permutation of
`0..n` listing all suffixes of the input in ascending lexicographic order;
since distinct suffixes are never byte-equal this output is unique, and we
realise it with insertion sort. -/
def suffixTableSA (s : List Nat) : List Nat :=
  List.insertionSort (sufLe s) (List.range s.length)

/-- The body of `build_suffix_array_in_memory` (src/build.rs): sort all suffixes,
keep offsets below `len` that sit on a UTF-8 boundary, in sorted order. -/
def buildInMemory (s : List Nat) (len : Nat) : List Nat :=
  (suffixTableSA s).filter (fun x => decide (x < len) && isCharBoundary s x)

/-- Smallest boundary at or after `i` (the snap-up loops in src/build.rs), with fuel. -/
def snapUpGo (t : List Nat) : Nat → Nat → Nat
  | 0, i => i
  | fuel + 1, i => if isCharBoundary t i then i else snapUpGo t fuel (i + 1)

/-- Smallest boundary of `t` at or after `i` (for `i ≤ len`). -/
def snapUp (t : List Nat) (i : Nat) : Nat := snapUpGo t (t.length + 1) i

/-- Loop of `calc_tail_len` (src/build.rs): grow the prefix of `pat` over char
boundaries while it still occurs in `text` from `occ` on; `none` when all of
`pat` occurs (the caller then absorbs the block to end of text). -/
def calcTailGo (text pat : List Nat) : Nat → Nat → Nat → Option Nat
  | 0, _, pl => some pl
  | fuel + 1, occ, pl =>
    match findSub (text.drop occ) (pat.take pl) with
    | none => some pl
    | some i =>
      if pl = pat.length then none
      else calcTailGo text pat fuel (occ + i) (snapUp pat (pl + 1))

/-- The `calc_tail_len` function of src/build.rs. -/
def calcTailLen (text pat : List Nat) : Option Nat :=
  calcTailGo text pat (pat.length + 1) 0 (snapUp pat 1)

/-- Block end and tail-extended end computed by one `sort_blocks` iteration:
snap the nominal end up to a boundary, then extend by the tail length (or
absorb to end of text when `calc_tail_len` finds every prefix). -/
def blockEnds (t : List Nat) (bs b0 : Nat) : Nat × Nat :=
  let e1 := snapUp t (min (b0 + bs) t.length)
  if e1 = t.length then (e1, e1)
  else
    match calcTailLen (sliceB t b0 e1) (t.drop e1) with
    | some l => (e1, e1 + l)
    | none => (t.length, t.length)

/-- One block descriptor produced by `sort_blocks`: its `begin` offset and the
spilled (locally sorted, locally indexed) entries. -/
def sortBlocksGo (t : List Nat) (bs : Nat) : Nat → Nat → List (Nat × List Nat)
  | 0, _ => []
  | fuel + 1, b0 =>
    if b0 < t.length then
      (b0, buildInMemory (sliceB t b0 (blockEnds t bs b0).2) ((blockEnds t bs b0).1 - b0))
        :: sortBlocksGo t bs fuel (blockEnds t bs b0).1
    else []

/-- The `sort_blocks` function of src/build.rs, as the list of spilled blocks. -/
def sortBlocks (t : List Nat) (bs : Nat) : List (Nat × List Nat) :=
  sortBlocksGo t bs (t.length + 1) 0

/-- Global offset of a cursor's front entry. -/
def frontOffset (c : Nat × List Nat) : Nat := c.1 + c.2.headD 0

/-- Pop the (leftmost) cursor with the least front suffix, as the min-heap of
`merge_blocks` does; ties cannot occur between live cursors. -/
def pickMin (t : List Nat) : List (Nat × List Nat) → Option ((Nat × List Nat) × List (Nat × List Nat))
  | [] => none
  | c :: cs =>
    match pickMin t cs with
    | none => some (c, [])
    | some (m, rest) =>
      if cmpBytes (t.drop (frontOffset c)) (t.drop (frontOffset m)) = Ordering.gt then
        some (m, c :: rest)
      else some (c, cs)

/-- One pop-emit-advance step of `merge_blocks` on the cursor multiset. -/
def mergeStep (t : List Nat) (st : List (Nat × List Nat)) : List (Nat × List Nat) :=
  match pickMin t st with
  | none => []
  | some (c, rest) =>
    match c.2 with
    | [] => rest
    | _ :: xs => if xs.isEmpty then rest else (c.1, xs) :: rest

/-- Fuelled k-way merge of `merge_blocks`: repeatedly emit the least front
suffix's global offset and advance that cursor. -/
def mergeGo (t : List Nat) : Nat → List (Nat × List Nat) → List Nat
  | 0, _ => []
  | fuel + 1, st =>
    match pickMin t st with
    | none => []
    | some (c, rest) =>
      match c.2 with
      | [] => []
      | x :: xs =>
        (c.1 + x) :: mergeGo t fuel (if xs.isEmpty then rest else (c.1, xs) :: rest)

/-- Initial cursors of the merge: the spilled blocks (each holds at least one
entry for valid builds; empty ones are dropped where Rust would have panicked
on `next().unwrap()`). -/
def initCursors (t : List Nat) (bs : Nat) : List (Nat × List Nat) :=
  (sortBlocks t bs).filter (fun c => !c.2.isEmpty)

/-- The state after `n` merge steps. -/
def mergeStateN (t : List Nat) (bs : Nat) (n : Nat) : List (Nat × List Nat) :=
  (mergeStep t)^[n] (initCursors t bs)

/-- The `merge_blocks` output stream. -/
def mergeBlocksOut (t : List Nat) (bs : Nat) : List Nat :=
  mergeGo t (((initCursors t bs).map (fun c => c.2.length)).sum + 1) (initCursors t bs)

/-- The `build_suffix_array` driver of src/build.rs. -/
def buildSuffixArray (t : List Nat) (bs : Nat) : List Nat :=
  if t.length = 0 then []
  else if t.length = 1 then [0]
  else if t.length ≤ bs then buildInMemory t t.length
  else mergeBlocksOut t bs

/-- The `IndexBuilder::build_to_buffer` guard chain followed by the build
(src/index.rs): rejects overlong text and zero block size. -/
def indexBuilderBuild (t : List Nat) (bs : Nat) : Except SufError (List Nat) :=
  if t.length > u32Max then Except.error SufError.textTooLong
  else if bs = 0 then Except.error (SufError.invalidOption "block size cannot be 0")
  else Except.ok (buildSuffixArray t bs)

/-- Suffix array of `IndexBuilder::new(text).build()` with the default block
size `u32::MAX`. -/
def defaultBuildSA (t : List Nat) : Except SufError (List Nat) := indexBuilderBuild t u32Max

/-- Rust `&text[i..]` on a `str`: panics (`none`) unless `i` is a char boundary. -/
def sliceFrom (t : List Nat) (i : Nat) : Option (List Nat) :=
  if isCharBoundary t i then some (t.drop i) else none

/-- Rust `&text[i..j]` on a `str`: panics (`none`) unless `i ≤ j` and both ends
are char boundaries. -/
def sliceRange (t : List Nat) (i j : Nat) : Option (List Nat) :=
  if i ≤ j ∧ isCharBoundary t i ∧ isCharBoundary t j then some (sliceB t i j) else none

/-- Loop of the `binary_search` helper of src/index.rs, with a fallible
predicate (a predicate evaluation may panic). -/
def bsearchGo (xs : List Nat) (pred : Nat → Option Bool) : Nat → Nat → Nat → Option Nat
  | 0, l, _ => some l
  | fuel + 1, l, r =>
    if l < r then
      let mid := (l + r) / 2
      match pred (xs.getD mid 0) with
      | none => none
      | some b => if b then bsearchGo xs pred fuel l mid else bsearchGo xs pred fuel (mid + 1) r
    else some l

/-- The `binary_search` helper of src/index.rs: least index where `pred` holds
(given `pred` monotone along `xs`), or `xs.length`. -/
def binarySearchM (xs : List Nat) (pred : Nat → Option Bool) : Option Nat :=
  bsearchGo xs pred (xs.length + 1) 0 xs.length

/-- The `Index::positions` method (src/index.rs); `none` models a panic (an
out-of-bounds suffix-array read or a slice at a non-boundary offset). -/
def positionsRun (t sa q : List Nat) : Option (List Nat) :=
  if t.length = 0 ∨ q.length = 0 ∨ q.length > t.length then some []
  else if sa.isEmpty then none
  else
      (sliceFrom t (sa.getD 0 0)).bind fun firstSuffix =>
      (sliceFrom t (sa.getD (sa.length - 1) 0)).bind fun lastSuffix =>
      if (cmpBytes q firstSuffix = Ordering.lt ∧ startsWithB firstSuffix q = false)
          ∨ cmpBytes q lastSuffix = Ordering.gt then some []
      else
        (binarySearchM sa (fun i => (sliceFrom t i).map
            (fun s => !(cmpBytes q s == Ordering.gt)))).bind fun start =>
        (binarySearchM (sa.drop start) (fun i => (sliceFrom t i).map
            (fun s => !startsWithB s q))).bind fun cnt =>
        let e := start + cnt
        if start > e then some [] else some ((sa.drop start).take (e - start))

/-- Little-endian bytes of a `u32` (the native order of the reference host). -/
def u32le (n : Nat) : List Nat :=
  [n % 256, n / 256 % 256, n / 65536 % 256, n / 16777216 % 256]

/-- Serialized suffix array: each entry written as a native-endian `u32`
(`IntBuffer<u32> for W` in src/build.rs). -/
def serializeSA (sa : List Nat) : List Nat := (sa.map u32le).flatten

/-- Reinterpret a byte buffer as packed native-endian `u32` values
(`bytemuck::try_cast_slice`): fails unless the length is a multiple of 4. -/
def bytesToU32s : List Nat → Option (List Nat)
  | [] => some []
  | b0 :: b1 :: b2 :: b3 :: rest =>
    (bytesToU32s rest).map (fun l => (b0 + 256 * b1 + 65536 * b2 + 16777216 * b3) :: l)
  | _ => none

/-- The `Index::from_bytes` constructor (src/index.rs), yielding the suffix
array it binds to `text`. -/
def indexFromBytes (t b : List Nat) : Except SufError (List Nat) :=
  if t.length > u32Max then Except.error SufError.textTooLong
  else
    (if b.isEmpty then some [] else bytesToU32s b).elim
      (Except.error SufError.invalidIndex)
      (fun sa =>
        if sa.length > t.length then Except.error SufError.invalidIndex
        else Except.ok sa)

/-- The `IndexBuilder::build_to_writer_native_endian` output (src/index.rs). -/
def buildToWriterNE (t : List Nat) (bs : Nat) : Except SufError (List Nat) :=
  if t.length > u32Max then Except.error SufError.textTooLong
  else if bs = 0 then Except.error (SufError.invalidOption "block size cannot be 0")
  else Except.ok (serializeSA (buildSuffixArray t bs))

/-- The `MultiDocIndexBuilder::calc_offsets` method (src/index.rs): 0 followed
by the position just after each delimiter occurrence, ascending; `none` models
a panic inside `positions`. -/
def calcOffsets (t sa delim : List Nat) : Option (List Nat) :=
  (positionsRun t sa delim).map fun ps =>
    0 :: (List.insertionSort (· ≤ ·) ps).map (· + delim.length)

/-- The `DocPositions::doc_id_from_pos` method (src/index.rs).  It calls
`slice::binary_search` on the offsets table; on the strictly sorted tables the
builder produces, `Ok(x)` / `Err(x)` combine into: one less than the count of
offsets not exceeding `pos`.  `none` models the `x - 1` underflow panic when
`pos` precedes every offset (impossible once offset 0 is present). -/
def docIdFromPos (offsets : List Nat) (pos : Nat) : Option Nat :=
  let c := offsets.countP (fun o => decide (o ≤ pos))
  if c = 0 then none else some (c - 1)

/-- The `MultiDocIndex::doc_positions` iterator, fully forced (src/index.rs):
empty for queries containing the delimiter; otherwise each absolute position is
mapped to its document and intra-document position. -/
def docPositionsRun (t sa offsets delim q : List Nat) : Option (List (Nat × Nat)) :=
  if containsChar q delim then some []
  else
    (positionsRun t sa q).bind fun ps =>
      ps.mapM fun p => (docIdFromPos offsets p).map fun k => (k, p - offsets.getD k 0)

/-- The `MultiDocIndex::freq` method (src/index.rs). -/
def multiFreq (t sa delim q : List Nat) : Option Nat :=
  if containsChar q delim then some 0
  else (positionsRun t sa q).map (fun ps => ps.length)

/-- The `MultiDocIndex::num_docs` method (src/index.rs). -/
def numDocs (offsets : List Nat) : Nat := offsets.length

/-- The `MultiDocIndex::doc` method (src/index.rs): outer `none` models a
slicing panic; inner `none` is the out-of-range result. -/
def docRun (t offsets : List Nat) (dl : Nat) (k : Nat) : Option (Option (List Nat)) :=
  if k ≥ offsets.length then some none
  else
    let b := offsets.getD k 0
    let e := if k = offsets.length - 1 then t.length else offsets.getD (k + 1) 0 - dl
    (sliceRange t b e).map some

/-- Read the native-endian `u32` at byte offset `i` of `b`. -/
def u32At (b : List Nat) (i : Nat) : Nat :=
  b.getD i 0 + 256 * b.getD (i + 1) 0 + 65536 * b.getD (i + 2) 0 + 16777216 * b.getD (i + 3) 0

/-- The 12-byte footer at the end of a `MultiDocIndex` buffer. -/
def footerOf (b : List Nat) : List Nat := b.drop (b.length - 12)

/-- The total buffer size announced by the footer:
`4·|SA| + 4·|O| + delim_byte_len + 12`. -/
def multiExpectedSize (b : List Nat) : Nat :=
  4 * u32At (footerOf b) 0 + 4 * u32At (footerOf b) 4 + u32At (footerOf b) 8 + 12

/-- The delimiter bytes of a `MultiDocIndex` buffer, as sliced by the footer. -/
def multiDelimBytes (b : List Nat) : List Nat :=
  (b.drop (4 * u32At (footerOf b) 0 + 4 * u32At (footerOf b) 4)).take (u32At (footerOf b) 8)

/-- The `MultiDocIndex::from_bytes` constructor (src/index.rs), yielding
(suffix array, offsets, delimiter chunk); the outer `none` models the panic of
slicing the 12-byte footer out of a shorter buffer. -/
def multiFromBytes (t b : List Nat) :
    Option (Except SufError (List Nat × List Nat × List Nat)) :=
  if b.length < 12 then none
  else if b.length ≠ multiExpectedSize b then
    some (Except.error SufError.invalidIndex)
  else
    match indexFromBytes t (b.take (4 * u32At (footerOf b) 0)) with
    | Except.error e => some (Except.error e)
    | Except.ok sa =>
      match bytesToU32s ((b.drop (4 * u32At (footerOf b) 0)).take (4 * u32At (footerOf b) 4)) with
      | none => some (Except.error SufError.invalidIndex)
      | some offsets =>
        match chunks (multiDelimBytes b) with
        | none => some (Except.error SufError.invalidIndex)
        | some cs =>
          if cs.length ≠ 1 then some (Except.error SufError.invalidIndex)
          else some (Except.ok (sa, offsets, cs.getD 0 []))

/-- The `MultiDocIndexBuilder::build_to_writer` body (src/index.rs): suffix
array, offsets, delimiter bytes, then the three-u32 footer. -/
def multiBuildToWriterNE (t sa delim : List Nat) : Option (List Nat) :=
  (calcOffsets t sa delim).map fun offsets =>
    serializeSA sa ++ serializeSA offsets ++ delim
      ++ u32le sa.length ++ u32le offsets.length ++ u32le delim.length

/-- Join documents with a delimiter (`itertools::join` over the document list). -/
def joinD (docs : List (List Nat)) (delim : List Nat) : List Nat :=
  List.intercalate delim docs

/-- A byte-wise match of `q` inside `d` at offset `p`, with both ends on UTF-8
boundaries (the occurrence set of the spec). -/
def matchAtB (d q : List Nat) (p : Nat) : Bool :=
  decide (p + q.length ≤ d.length) && isCharBoundary d p && isCharBoundary d (p + q.length)
    && decide (sliceB d p (p + q.length) = q)

/-- All boundary-aligned occurrences of `q` in `d`, ascending. -/
def occList (d q : List Nat) : List Nat :=
  (List.range (d.length + 1)).filter (matchAtB d q)

/-- Lexicographic order on (document id, position) pairs. -/
def pairLe (a b : Nat × Nat) : Prop := a.1 < b.1 ∨ (a.1 = b.1 ∧ a.2 ≤ b.2)

instance (a b : Nat × Nat) : Decidable (pairLe a b) :=
  inferInstanceAs (Decidable (_ ∨ _))

/-- Ascending sort of (document id, position) pairs. -/
def sortPairs (l : List (Nat × Nat)) : List (Nat × Nat) := List.insertionSort pairLe l

/-- Start offset of document `k` in the joined text. -/
def docStart (docs : List (List Nat)) (delim : List Nat) (k : Nat) : Nat :=
  ((docs.take k).map (fun d => d.length + delim.length)).sum

/-- The per-document occurrence pairs of the spec, document by document. -/
def perDocOccs (docs : List (List Nat)) (q : List Nat) : List (Nat × Nat) :=
  ((List.range docs.length).map fun k => (occList (docs.getD k []) q).map fun p => (k, p)).flatten

/-- Ascending sort of a list of offsets. -/
def sortNat (l : List Nat) : List Nat := List.insertionSort (· ≤ ·) l

/-- All UTF-8 boundary offsets of `t` below its length, ascending. -/
def boundaryList (t : List Nat) : List Nat :=
  (List.range t.length).filter (isCharBoundary t)

/-- Consecutive entries of `sa` point at strictly ascending suffixes of `t`. -/
def suffixSortedB (t : List Nat) : List Nat → Bool
  | [] => true
  | [_] => true
  | a :: b :: rest => decide (lexLt (t.drop a) (t.drop b)) && suffixSortedB t (b :: rest)

/-- Propositional form of `suffixSortedB`. -/
def SuffixSorted (t sa : List Nat) : Prop := suffixSortedB t sa = true

instance (t sa : List Nat) : Decidable (SuffixSorted t sa) :=
  inferInstanceAs (Decidable (suffixSortedB t sa = true))

/-- Global offsets still pending inside one merge cursor. -/
def cursorOffsets (c : Nat × List Nat) : List Nat := c.2.map (c.1 + ·)

/-- Global offsets pending across a merge state. -/
def stateOffsets (st : List (Nat × List Nat)) : List Nat := (st.map cursorOffsets).flatten

/-- The failing text for the external-memory build: five identical bytes
followed by a larger one. -/
def cexText : List Nat := [97, 97, 97, 97, 97, 98]

/-! ## Byte-wise comparison: order theory -/

theorem cmpBytes_eq_iff : ∀ a b : List Nat, cmpBytes a b = Ordering.eq ↔ a = b
  | [], [] => by simp [cmpBytes]
  | [], _ :: _ => by simp [cmpBytes]
  | _ :: _, [] => by simp [cmpBytes]
  | a :: as_, b :: bs => by
    simp only [cmpBytes]
    rcases Nat.lt_trichotomy a b with h | h | h
    · simp only [if_pos h]
      constructor
      · intro hc; cases hc
      · rintro ⟨⟩; exact absurd rfl (Nat.ne_of_lt h)
    · subst h
      simp only [if_neg (Nat.lt_irrefl a), cmpBytes_eq_iff as_ bs]
      constructor
      · intro h2; rw [h2]
      · intro h2; cases h2; rfl
    · rw [if_neg (Nat.not_lt_of_lt h), if_pos h]
      constructor
      · intro hc; cases hc
      · rintro ⟨⟩; exact absurd rfl (Nat.ne_of_lt h)

theorem cmpBytes_swap : ∀ a b : List Nat, cmpBytes b a = (cmpBytes a b).swap
  | [], [] => rfl
  | [], _ :: _ => rfl
  | _ :: _, [] => rfl
  | a :: as_, b :: bs => by
    simp only [cmpBytes]
    rcases Nat.lt_trichotomy a b with h | h | h
    · rw [if_pos h, if_neg (Nat.not_lt_of_lt h), if_pos h]; rfl
    · subst h
      simp only [if_neg (Nat.lt_irrefl a)]
      exact cmpBytes_swap as_ bs
    · rw [if_pos h, if_neg (Nat.not_lt_of_lt h), if_pos h]; rfl

theorem cmpBytes_lt_trans :
    ∀ a b c : List Nat, cmpBytes a b = Ordering.lt → cmpBytes b c = Ordering.lt →
      cmpBytes a c = Ordering.lt
  | [], [], _, h1, _ => by cases h1
  | [], _ :: _, [], _, h2 => by simp [cmpBytes] at h2
  | [], _ :: _, _ :: _, _, _ => rfl
  | _ :: _, [], _, h1, _ => by cases h1
  | _ :: _, _ :: _, [], _, h2 => by cases h2
  | a :: as_, b :: bs, c :: cs, h1, h2 => by
    simp only [cmpBytes] at h1 h2 ⊢
    rcases Nat.lt_trichotomy a b with hab | hab | hab
    · rcases Nat.lt_trichotomy b c with hbc | hbc | hbc
      · exact if_pos (Nat.lt_trans hab hbc)
      · subst hbc; exact if_pos hab
      · rw [if_neg (Nat.not_lt_of_lt hbc), if_pos hbc] at h2; cases h2
    · subst hab
      rcases Nat.lt_trichotomy a c with hac | hac | hac
      · exact if_pos hac
      · subst hac
        simp only [if_neg (Nat.lt_irrefl a)] at h1 h2 ⊢
        exact cmpBytes_lt_trans as_ bs cs h1 h2
      · rw [if_neg (Nat.not_lt_of_lt hac), if_pos hac] at h2; cases h2
    · rw [if_neg (Nat.not_lt_of_lt hab), if_pos hab] at h1; cases h1

theorem cmpBytes_gt_iff_lt (a b : List Nat) :
    cmpBytes a b = Ordering.gt ↔ cmpBytes b a = Ordering.lt := by
  rw [cmpBytes_swap b a]
  cases h : cmpBytes b a <;> simp [Ordering.swap]

theorem lexLe_iff (a b : List Nat) : lexLe a b ↔ cmpBytes a b = Ordering.lt ∨ a = b := by
  unfold lexLe
  rw [← cmpBytes_eq_iff a b]
  cases cmpBytes a b <;> simp

theorem lexLe_refl (a : List Nat) : lexLe a a := by
  rw [lexLe_iff]; right; rfl

theorem lexLt_asymm {a b : List Nat} (h : lexLt a b) : ¬ lexLt b a := by
  unfold lexLt at *
  rw [cmpBytes_swap a b, h]
  simp [Ordering.swap]

theorem lexLt_irrefl (a : List Nat) : ¬ lexLt a a := by
  intro h; exact lexLt_asymm h h

theorem lexLe_trans {a b c : List Nat} (h1 : lexLe a b) (h2 : lexLe b c) : lexLe a c := by
  rw [lexLe_iff] at *
  rcases h1 with h1 | rfl
  · rcases h2 with h2 | rfl
    · exact Or.inl (cmpBytes_lt_trans _ _ _ h1 h2)
    · exact Or.inl h1
  · exact h2

theorem lexLe_antisymm {a b : List Nat} (h1 : lexLe a b) (h2 : lexLe b a) : a = b := by
  rw [lexLe_iff] at *
  rcases h1 with h1 | rfl
  · rcases h2 with h2 | rfl
    · exact absurd h2 (lexLt_asymm h1)
    · rfl
  · rfl

theorem lexLe_total (a b : List Nat) : lexLe a b ∨ lexLe b a := by
  unfold lexLe
  rw [cmpBytes_swap a b]
  cases h : cmpBytes a b <;> simp [Ordering.swap]

theorem lexLt_of_lexLe_not_lexLe {a b : List Nat} (h1 : lexLe a b) (h2 : ¬ lexLe b a) :
    lexLt a b := by
  rw [lexLe_iff] at h1
  rcases h1 with h1 | rfl
  · exact h1
  · exact absurd (lexLe_refl a) h2

theorem lexLt_iff_not_lexLe {a b : List Nat} : lexLt a b ↔ ¬ lexLe b a := by
  unfold lexLt lexLe
  rw [cmpBytes_swap b a]
  cases h : cmpBytes b a <;> simp [Ordering.swap]

theorem lexLe_of_lexLt {a b : List Nat} (h : lexLt a b) : lexLe a b := by
  rw [lexLe_iff]; exact Or.inl h

instance (s : List Nat) : IsTotal Nat (sufLe s) :=
  ⟨fun i j => lexLe_total (s.drop i) (s.drop j)⟩

instance (s : List Nat) : IsTrans Nat (sufLe s) :=
  ⟨fun _ _ _ h1 h2 => lexLe_trans h1 h2⟩

/-! ## Prefixes and comparison -/

theorem startsWithB_iff : ∀ s q : List Nat, startsWithB s q = true ↔ ∃ r, s = q ++ r
  | s, [] => by simp [startsWithB]
  | [], _ :: _ => by simp [startsWithB]
  | a :: as_, b :: bs => by
    simp only [startsWithB, Bool.and_eq_true, beq_iff_eq, startsWithB_iff as_ bs, List.cons_append]
    constructor
    · rintro ⟨rfl, r, rfl⟩; exact ⟨r, rfl⟩
    · rintro ⟨r, h⟩
      cases h
      exact ⟨rfl, r, rfl⟩

theorem lexLe_append_self : ∀ q r : List Nat, lexLe q (q ++ r)
  | [], r => by cases r <;> simp [lexLe, cmpBytes]
  | a :: q, r => by
    have ih := lexLe_append_self q r
    simpa [lexLe, cmpBytes] using ih

theorem lexLe_of_startsWithB {s q : List Nat} (h : startsWithB s q = true) : lexLe q s := by
  obtain ⟨r, rfl⟩ := (startsWithB_iff s q).1 h
  exact lexLe_append_self q r

theorem lexLe_cons_iff {a b : Nat} {as_ bs : List Nat} :
    lexLe (a :: as_) (b :: bs) ↔ a < b ∨ (a = b ∧ lexLe as_ bs) := by
  unfold lexLe
  simp only [cmpBytes]
  rcases Nat.lt_trichotomy a b with h | h | h
  · simp [if_pos h, h]
  · subst h
    simp [Nat.lt_irrefl]
  · rw [if_neg (Nat.not_lt_of_lt h), if_pos h]
    constructor
    · intro hc; exact absurd rfl hc
    · rintro (h2 | ⟨rfl, _⟩)
      · exact absurd h2 (Nat.not_lt_of_lt h)
      · exact absurd h (Nat.lt_irrefl _)

theorem startsWithB_sandwich :
    ∀ (q x y : List Nat), lexLe q x → lexLe x y → startsWithB y q = true →
      startsWithB x q = true
  | [], _, _, _, _, _ => by simp [startsWithB_iff]
  | a :: qt, [], _, h1, _, _ => by
    exfalso
    exact h1 rfl
  | a :: qt, b :: xt, [], _, h2, _ => by
    exfalso
    exact h2 rfl
  | _ :: qt, b :: xt, c :: yt, h1, h2, h3 => by
    obtain ⟨r, hr⟩ := (startsWithB_iff _ _).1 h3
    rw [List.cons_append] at hr
    obtain ⟨h4, h5⟩ := List.cons_eq_cons.mp hr
    subst h4
    subst h5
    rw [lexLe_cons_iff] at h1 h2
    rcases h1 with h1 | ⟨rfl, h1⟩
    · rcases h2 with h2 | ⟨rfl, h2⟩
      · exact absurd (Nat.lt_trans h1 h2) (Nat.lt_irrefl _)
      · exact absurd h1 (Nat.lt_irrefl _)
    · rcases h2 with h2 | ⟨-, h2⟩
      · exact absurd h2 (Nat.lt_irrefl _)
      · have hy : startsWithB (qt ++ r) qt = true := (startsWithB_iff _ _).2 ⟨r, rfl⟩
        have := startsWithB_sandwich qt xt (qt ++ r) h1 h2 hy
        simp [startsWithB, this]

theorem startsWithB_take_iff (s q : List Nat) :
    startsWithB s q = true ↔ q.length ≤ s.length ∧ s.take q.length = q := by
  rw [startsWithB_iff]
  constructor
  · rintro ⟨r, rfl⟩
    constructor
    · simp
    · exact List.take_left q r
  · rintro ⟨hlen, htake⟩
    refine ⟨s.drop q.length, ?_⟩
    conv_lhs => rw [← List.take_append_drop q.length s]
    rw [htake]

theorem cmpBytes_ne_eq_of_length {a b : List Nat} (h : a.length ≠ b.length) :
    cmpBytes a b ≠ Ordering.eq := by
  intro hc
  exact h (congrArg List.length ((cmpBytes_eq_iff a b).1 hc))

/-! ## Binary search -/

theorem bsearchGo_spec (xs : List Nat) (pred : Nat → Option Bool) (f : Nat → Bool)
    (hpred : ∀ x ∈ xs, pred x = some (f x))
    (hmono : ∀ i j, i ≤ j → j < xs.length → f (xs.getD i 0) = true → f (xs.getD j 0) = true) :
    ∀ (fuel l r : Nat), l ≤ r → r ≤ xs.length → r - l ≤ fuel →
      (∀ i, i < l → f (xs.getD i 0) = false) →
      (∀ i, r ≤ i → i < xs.length → f (xs.getD i 0) = true) →
      ∃ k, bsearchGo xs pred fuel l r = some k ∧ l ≤ k ∧ k ≤ r ∧
        (∀ i, i < k → f (xs.getD i 0) = false) ∧
        (∀ i, k ≤ i → i < xs.length → f (xs.getD i 0) = true) := by
  intro fuel
  induction fuel with
  | zero =>
    intro l r hlr hrn hfuel hlo hhi
    have : l = r := by omega
    subst this
    exact ⟨l, rfl, Nat.le_refl l, Nat.le_refl l, hlo, hhi⟩
  | succ fuel ih =>
    intro l r hlr hrn hfuel hlo hhi
    by_cases hlt : l < r
    · have hmid : (l + r) / 2 < xs.length := by omega
      have hmem : xs.getD ((l + r) / 2) 0 ∈ xs := by
        rw [List.getD_eq_getElem?_getD, List.getElem?_eq_getElem hmid]
        exact List.getElem_mem _
      simp only [bsearchGo, if_pos hlt, hpred _ hmem]
      cases hb : f (xs.getD ((l + r) / 2) 0) with
      | true =>
        obtain ⟨k, hk, h1, h2, h3, h4⟩ := ih l ((l + r) / 2) (by omega) (by omega) (by omega) hlo
          (fun i h1 h2 => hmono ((l + r) / 2) i h1 h2 hb)
        exact ⟨k, by simpa using hk, h1, by omega, h3, h4⟩
      | false =>
        refine ?_
        have hlo2 : ∀ i, i < (l + r) / 2 + 1 → f (xs.getD i 0) = false := by
          intro i hi
          by_cases hil : i < l
          · exact hlo i hil
          · cases hfi : f (xs.getD i 0)
            · rfl
            · exact absurd (hmono i ((l + r) / 2) (by omega) hmid hfi) (by rw [hb]; simp)
        have := ih ((l + r) / 2 + 1) r (by omega) hrn (by omega) hlo2 hhi
        obtain ⟨k, hk, h1, h2, h3, h4⟩ := this
        exact ⟨k, by simpa using hk, by omega, h2, h3, h4⟩
    · have : l = r := by omega
      subst this
      simp only [bsearchGo, if_neg hlt]
      exact ⟨l, rfl, Nat.le_refl l, Nat.le_refl l, hlo, hhi⟩

theorem binarySearchM_spec (xs : List Nat) (pred : Nat → Option Bool) (f : Nat → Bool)
    (hpred : ∀ x ∈ xs, pred x = some (f x))
    (hmono : ∀ i j, i ≤ j → j < xs.length → f (xs.getD i 0) = true → f (xs.getD j 0) = true) :
    ∃ k, binarySearchM xs pred = some k ∧ k ≤ xs.length ∧
      (∀ i, i < k → f (xs.getD i 0) = false) ∧
      (∀ i, k ≤ i → i < xs.length → f (xs.getD i 0) = true) := by
  obtain ⟨k, hk, _, h2, h3, h4⟩ :=
    bsearchGo_spec xs pred f hpred hmono (xs.length + 1) 0 xs.length
      (Nat.zero_le _) (Nat.le_refl _) (by omega)
      (fun i hi => absurd hi (Nat.not_lt_zero i))
      (fun i h1 h2 => absurd h1 (Nat.not_le_of_lt h2))
  exact ⟨k, hk, h2, h3, h4⟩

/-! ## Properties of the in-memory suffix-array build -/

theorem suffixTableSA_perm (s : List Nat) : (suffixTableSA s).Perm (List.range s.length) :=
  List.perm_insertionSort _ _

theorem suffixTableSA_sorted (s : List Nat) : (suffixTableSA s).Sorted (sufLe s) :=
  List.sorted_insertionSort _ _

theorem buildInMemory_mem (s : List Nat) (len x : Nat) :
    x ∈ buildInMemory s len ↔ x < s.length ∧ x < len ∧ isCharBoundary s x = true := by
  unfold buildInMemory
  rw [List.mem_filter, (suffixTableSA_perm s).mem_iff, List.mem_range]
  simp [and_assoc]

theorem buildInMemory_sorted (s : List Nat) (len : Nat) :
    (buildInMemory s len).Sorted (sufLe s) :=
  (suffixTableSA_sorted s).filter _

theorem buildInMemory_nodup (s : List Nat) (len : Nat) : (buildInMemory s len).Nodup :=
  (((suffixTableSA_perm s).nodup_iff).2 (List.nodup_range _)).filter _

theorem sorted_nodup_strict {t : List Nat} {l : List Nat}
    (hs : l.Sorted (sufLe t)) (hn : l.Nodup) (hb : ∀ x ∈ l, x < t.length) :
    l.Pairwise (fun a b => lexLt (t.drop a) (t.drop b)) := by
  have := List.Pairwise.and hs hn
  refine this.imp_of_mem ?_
  intro a b ha hb2 hab
  obtain ⟨hle, hne⟩ := hab
  rcases (lexLe_iff _ _).1 hle with h | h
  · exact h
  · exfalso
    have : t.length - a = t.length - b := by
      have := congrArg List.length h
      simpa using this
    exact hne (by have ha2 := hb a ha; have hb3 := hb b hb2; omega)

theorem buildInMemory_strict (s : List Nat) (len : Nat) :
    (buildInMemory s len).Pairwise (fun a b => lexLt (s.drop a) (s.drop b)) :=
  sorted_nodup_strict (buildInMemory_sorted s len) (buildInMemory_nodup s len)
    (fun x hx => ((buildInMemory_mem s len x).1 hx).1)

theorem defaultSA_eq (t : List Nat) (h : t.length ≤ u32Max) :
    defaultBuildSA t = Except.ok (buildSuffixArray t u32Max) := by
  unfold defaultBuildSA indexBuilderBuild
  rw [if_neg (by omega), if_neg (by unfold u32Max; omega)]

theorem buildSA_head_zero (t : List Nat) (len : Nat) (h0 : 0 < len) (h1 : 0 < t.length) :
    0 ∈ buildInMemory t len := by
  rw [buildInMemory_mem]
  exact ⟨h1, h0, by simp [isCharBoundary]⟩

theorem buildSuffixArray_inMemory (t : List Nat) (bs : Nat) (hbs : t.length ≤ bs) :
    buildSuffixArray t bs = buildInMemory t t.length := by
  unfold buildSuffixArray
  by_cases h0 : t.length = 0
  · rw [if_pos h0]
    have : t = [] := List.length_eq_zero.1 h0
    subst this
    simp [buildInMemory, suffixTableSA]
  · rw [if_neg h0]
    by_cases h1 : t.length = 1
    · rw [if_pos h1]
      obtain ⟨a, ha⟩ : ∃ a, t = [a] := List.length_eq_one.1 h1
      subst ha
      simp [buildInMemory, suffixTableSA, List.range_succ, List.insertionSort,
        List.orderedInsert, isCharBoundary, List.filter]
    · rw [if_neg h1, if_pos hbs]

/-- Collected suffix-array invariants used by the query layer. -/
def GoodSA (t sa : List Nat) : Prop :=
  (∀ x, x ∈ sa ↔ (x < t.length ∧ isCharBoundary t x = true)) ∧
    sa.Sorted (sufLe t) ∧ sa.Nodup

theorem goodSA_build (t : List Nat) : GoodSA t (buildInMemory t t.length) := by
  refine ⟨fun x => ?_, buildInMemory_sorted t _, buildInMemory_nodup t _⟩
  rw [buildInMemory_mem]
  constructor
  · rintro ⟨h1, _, h3⟩; exact ⟨h1, h3⟩
  · rintro ⟨h1, h3⟩; exact ⟨h1, h1, h3⟩

/-! ## Correctness of Index::positions -/

theorem getD_mem {l : List Nat} {i : Nat} (h : i < l.length) : l.getD i 0 ∈ l := by
  rw [List.getD_eq_getElem l 0 h]
  exact List.getElem_mem _

theorem mem_take_getD {l : List Nat} {k : Nat} {x : Nat} (h : x ∈ l.take k) :
    ∃ i, i < k ∧ i < l.length ∧ x = l.getD i 0 := by
  obtain ⟨i, hi, hx⟩ := List.mem_iff_getElem.1 h
  have hik : i < k := by have := hi; simp at this; omega
  have hil : i < l.length := by have := hi; simp at this; omega
  refine ⟨i, hik, hil, ?_⟩
  rw [List.getD_eq_getElem l 0 hil, ← hx, List.getElem_take]

theorem mem_drop_getD {l : List Nat} {k : Nat} {x : Nat} (h : x ∈ l.drop k) :
    ∃ i, k ≤ i ∧ i < l.length ∧ x = l.getD i 0 := by
  obtain ⟨i, hi, hx⟩ := List.mem_iff_getElem.1 h
  have hil : k + i < l.length := by have := hi; simp at this; omega
  refine ⟨k + i, by omega, hil, ?_⟩
  rw [List.getD_eq_getElem l 0 hil, ← hx, List.getElem_drop]

theorem getD_drop_eq {l : List Nat} {k i : Nat} (h : k + i < l.length) :
    (l.drop k).getD i 0 = l.getD (k + i) 0 := by
  have h2 : i < (l.drop k).length := by simp; omega
  rw [List.getD_eq_getElem _ 0 h2, List.getD_eq_getElem l 0 h, List.getElem_drop]

theorem sorted_getD_le {t l : List Nat} (hs : l.Sorted (sufLe t)) {i j : Nat}
    (hij : i ≤ j) (hj : j < l.length) : sufLe t (l.getD i 0) (l.getD j 0) := by
  rcases Nat.eq_or_lt_of_le hij with rfl | hlt
  · exact lexLe_refl _
  · have hi : i < l.length := by omega
    rw [List.getD_eq_getElem l 0 hi, List.getD_eq_getElem l 0 hj]
    exact hs.rel_get_of_lt hlt

theorem sorted_le_getLast {t : List Nat} :
    ∀ {l : List Nat}, l.Sorted (sufLe t) → ∀ y ∈ l, sufLe t y (l.getD (l.length - 1) 0) := by
  intro l hs y hy
  obtain ⟨i, hi, hx⟩ := List.mem_iff_getElem.1 hy
  have : y = l.getD i 0 := by rw [List.getD_eq_getElem l 0 hi, hx]
  subst this
  exact sorted_getD_le hs (by omega) (by omega)

theorem sliceFrom_of_boundary {t : List Nat} {x : Nat} (h : isCharBoundary t x = true) :
    sliceFrom t x = some (t.drop x) := by
  unfold sliceFrom
  rw [if_pos h]

theorem bnot_beq_gt (q s : List Nat) :
    (!(cmpBytes q s == Ordering.gt)) = decide (lexLe q s) := by
  cases h : cmpBytes q s <;> simp [lexLe, h] <;> rfl

theorem positionsRun_trivial (t sa q : List Nat)
    (h : t.length = 0 ∨ q.length = 0 ∨ q.length > t.length) :
    positionsRun t sa q = some [] := by
  unfold positionsRun
  rw [if_pos h]

theorem positionsRun_main (t sa q : List Nat) (hsa : GoodSA t sa)
    (ht : t.length ≠ 0) (hq : q.length ≠ 0) (hlen : q.length ≤ t.length) :
    positionsRun t sa q = some (sa.filter (fun i => startsWithB (t.drop i) q)) := by
  obtain ⟨hmem, hsorted, hnodup⟩ := hsa
  have hbound : ∀ x ∈ sa, isCharBoundary t x = true := fun x hx => ((hmem x).1 hx).2
  have h0mem : (0 : Nat) ∈ sa := (hmem 0).2 ⟨by omega, by simp [isCharBoundary]⟩
  have hne : sa ≠ [] := fun h => by rw [h] at h0mem; cases h0mem
  have hlen0 : 0 < sa.length := by
    cases sa with
    | nil => exact absurd rfl hne
    | cons a l => simp
  unfold positionsRun
  rw [if_neg (by push_neg; exact ⟨ht, hq, by omega⟩)]
  rw [if_neg (by
    intro h
    exact hne (List.isEmpty_iff.1 h))]
  have hs0 : sa.getD 0 0 ∈ sa := getD_mem hlen0
  have hlast_lt : sa.length - 1 < sa.length := by omega
  have hlastmem : sa.getD (sa.length - 1) 0 ∈ sa := getD_mem hlast_lt
  rw [sliceFrom_of_boundary (hbound _ hs0), sliceFrom_of_boundary (hbound _ hlastmem)]
  simp only [Option.bind_eq_bind, Option.some_bind]
  set firstSuf := t.drop (sa.getD 0 0) with hfs
  set lastSuf := t.drop (sa.getD (sa.length - 1) 0) with hls
  have hfirst_min : ∀ y ∈ sa, sufLe t (sa.getD 0 0) y := by
    intro y hy
    obtain ⟨i, hi, hx⟩ := List.mem_iff_getElem.1 hy
    have : y = sa.getD i 0 := by rw [List.getD_eq_getElem sa 0 hi, hx]
    subst this
    exact sorted_getD_le hsorted (Nat.zero_le i) hi
  have hlast_max : ∀ y ∈ sa, sufLe t y (sa.getD (sa.length - 1) 0) :=
    sorted_le_getLast hsorted
  by_cases hrej : (cmpBytes q firstSuf = Ordering.lt ∧ startsWithB firstSuf q = false)
      ∨ cmpBytes q lastSuf = Ordering.gt
  · rw [if_pos hrej]
    have hfil : sa.filter (fun i => startsWithB (t.drop i) q) = [] := by
      rw [List.filter_eq_nil_iff]
      intro x hx hst
      rcases hrej with ⟨hlt, hnst⟩ | hgt
      · have h1 : lexLe q firstSuf := lexLe_of_lexLt hlt
        have h2 : lexLe firstSuf (t.drop x) := hfirst_min x hx
        have := startsWithB_sandwich q firstSuf (t.drop x) h1 h2 hst
        rw [hnst] at this
        cases this
      · have h1 : lexLe q (t.drop x) := lexLe_of_startsWithB hst
        have h2 : lexLe (t.drop x) lastSuf := hlast_max x hx
        have h3 : lexLt lastSuf q := (cmpBytes_gt_iff_lt q lastSuf).1 hgt
        exact lexLt_iff_not_lexLe.1 h3 (lexLe_trans h1 h2)
    rw [hfil]
  · rw [if_neg hrej]
    have hpred1 : ∀ x ∈ sa, (sliceFrom t x).map (fun s => !(cmpBytes q s == Ordering.gt))
        = some (decide (lexLe q (t.drop x))) := by
      intro x hx
      rw [sliceFrom_of_boundary (hbound x hx)]
      simp only [Option.map_some']
      rw [bnot_beq_gt]
    have hmono1 : ∀ i j, i ≤ j → j < sa.length →
        decide (lexLe q (t.drop (sa.getD i 0))) = true →
        decide (lexLe q (t.drop (sa.getD j 0))) = true := by
      intro i j hij hj h
      rw [decide_eq_true_iff] at h ⊢
      exact lexLe_trans h (sorted_getD_le hsorted hij hj)
    obtain ⟨k1, hk1, hk1len, hk1lo, hk1hi⟩ :=
      binarySearchM_spec sa _ (fun x => decide (lexLe q (t.drop x))) hpred1 hmono1
    rw [hk1]
    simp only [Option.some_bind]
    have hpred2 : ∀ x ∈ sa.drop k1, (sliceFrom t x).map (fun s => !startsWithB s q)
        = some (!startsWithB (t.drop x) q) := by
      intro x hx
      rw [sliceFrom_of_boundary (hbound x (((List.drop_sublist k1 sa).mem hx)))]
      simp
    have hmono2 : ∀ i j, i ≤ j → j < (sa.drop k1).length →
        (!startsWithB (t.drop ((sa.drop k1).getD i 0)) q) = true →
        (!startsWithB (t.drop ((sa.drop k1).getD j 0)) q) = true := by
      intro i j hij hj h
      have hjlen : k1 + j < sa.length := by
        have h2 := hj; simp at h2; omega
      have hilen : k1 + i < sa.length := by omega
      rw [getD_drop_eq hilen] at h
      rw [getD_drop_eq hjlen]
      have hq1 : lexLe q (t.drop (sa.getD (k1 + i) 0)) :=
        of_decide_eq_true (hk1hi (k1 + i) (by omega) hilen)
      have hle2 : lexLe (t.drop (sa.getD (k1 + i) 0)) (t.drop (sa.getD (k1 + j) 0)) :=
        sorted_getD_le hsorted (by omega) hjlen
      cases hstj : startsWithB (t.drop (sa.getD (k1 + j) 0)) q with
      | false => rfl
      | true =>
        have hsti := startsWithB_sandwich q _ _ hq1 hle2 hstj
        rw [hsti] at h
        cases h
    obtain ⟨k2, hk2, hk2len, hk2lo, hk2hi⟩ :=
      binarySearchM_spec (sa.drop k1) _ (fun x => !startsWithB (t.drop x) q) hpred2 hmono2
    rw [hk2]
    simp only [Option.some_bind]
    rw [if_neg (by omega)]
    have harith : k1 + k2 - k1 = k2 := by omega
    rw [harith]
    congr 1
    have hdeco : sa = sa.take k1 ++ ((sa.drop k1).take k2 ++ (sa.drop k1).drop k2) := by
      rw [List.take_append_drop, List.take_append_drop]
    conv_rhs => rw [hdeco]
    rw [List.filter_append, List.filter_append]
    have hfil1 : (sa.take k1).filter (fun i => startsWithB (t.drop i) q) = [] := by
      rw [List.filter_eq_nil_iff]
      intro x hx hst
      obtain ⟨i, hik, hil, rfl⟩ := mem_take_getD hx
      have := hk1lo i hik
      rw [decide_eq_false_iff_not] at this
      exact this (lexLe_of_startsWithB hst)
    have hfil2 : ((sa.drop k1).take k2).filter (fun i => startsWithB (t.drop i) q)
        = (sa.drop k1).take k2 := by
      rw [List.filter_eq_self]
      intro x hx
      obtain ⟨i, hik, hil, rfl⟩ := mem_take_getD hx
      have := hk2lo i hik
      rw [Bool.not_eq_eq_eq_not, Bool.not_false] at this
      exact this
    have hfil3 : ((sa.drop k1).drop k2).filter (fun i => startsWithB (t.drop i) q) = [] := by
      rw [List.filter_eq_nil_iff]
      intro x hx hst
      obtain ⟨i, hik, hil, rfl⟩ := mem_drop_getD hx
      have := hk2hi i hik hil
      rw [Bool.not_eq_eq_eq_not, Bool.not_true] at this
      rw [this] at hst
      cases hst
    rw [hfil1, hfil2, hfil3]
    simp

/-! ## UTF-8 chunk theory -/

theorem chunksF_fuel_eq :
    ∀ (f1 f2 : Nat) (s : List Nat), s.length ≤ f1 → s.length ≤ f2 → chunksF f1 s = chunksF f2 s := by
  intro f1
  induction f1 with
  | zero =>
    intro f2 s h1 _
    have : s = [] := List.length_eq_zero.1 (by omega)
    subst this
    cases f2 <;> rfl
  | succ f1 ih =>
    intro f2 s h1 h2
    cases s with
    | nil => cases f2 <;> rfl
    | cons b rest =>
      cases f2 with
      | zero => simp at h2
      | succ f2 =>
        simp only [chunksF]
        by_cases hcont : contByte b
        · rw [if_pos hcont, if_pos hcont]
        · rw [if_neg hcont, if_neg hcont]
          by_cases hc : ((rest.take (charLen b - 1)).length = charLen b - 1
              ∧ (rest.take (charLen b - 1)).all contByte)
          · rw [if_pos hc, if_pos hc]
            have hd : (rest.drop (charLen b - 1)).length ≤ f1 := by
              have := List.length_drop (charLen b - 1) rest
              simp at h1
              omega
            have hd2 : (rest.drop (charLen b - 1)).length ≤ f2 := by
              have := List.length_drop (charLen b - 1) rest
              simp at h2
              omega
            rw [ih f2 _ hd hd2]
          · rw [if_neg hc, if_neg hc]

theorem chunksF_flatten :
    ∀ (f : Nat) (s : List Nat) (cs : List (List Nat)), chunksF f s = some cs → cs.flatten = s := by
  intro f
  induction f with
  | zero =>
    intro s cs h
    cases s with
    | nil => cases h; rfl
    | cons b rest => cases h
  | succ f ih =>
    intro s cs h
    cases s with
    | nil => cases h; rfl
    | cons b rest =>
      simp only [chunksF] at h
      by_cases hcont : contByte b
      · rw [if_pos hcont] at h; cases h
      · rw [if_neg hcont] at h
        by_cases hc : ((rest.take (charLen b - 1)).length = charLen b - 1
            ∧ (rest.take (charLen b - 1)).all contByte)
        · rw [if_pos hc] at h
          cases hrec : chunksF f (rest.drop (charLen b - 1)) with
          | none => rw [hrec] at h; cases h
          | some cs2 =>
            rw [hrec] at h
            simp only [Option.map_some'] at h
            cases h
            have := ih _ _ hrec
            simp only [List.flatten_cons, this]
            rw [List.cons_append, List.take_append_drop]
        · rw [if_neg hc] at h; cases h

theorem chunksF_chunkOK :
    ∀ (f : Nat) (s : List Nat) (cs : List (List Nat)), chunksF f s = some cs →
      ∀ c ∈ cs, ChunkOK c := by
  intro f
  induction f with
  | zero =>
    intro s cs h c hc
    cases s with
    | nil => cases h; cases hc
    | cons b rest => cases h
  | succ f ih =>
    intro s cs h c hc
    cases s with
    | nil => cases h; cases hc
    | cons b rest =>
      simp only [chunksF] at h
      by_cases hcont : contByte b
      · rw [if_pos hcont] at h; cases h
      · rw [if_neg hcont] at h
        by_cases hcd : ((rest.take (charLen b - 1)).length = charLen b - 1
            ∧ (rest.take (charLen b - 1)).all contByte)
        · rw [if_pos hcd] at h
          cases hrec : chunksF f (rest.drop (charLen b - 1)) with
          | none => rw [hrec] at h; cases h
          | some cs2 =>
            rw [hrec] at h
            simp only [Option.map_some'] at h
            cases h
            rcases List.mem_cons.1 hc with rfl | hc2
            · exact ⟨Bool.of_not_eq_true hcont, hcd.2, hcd.1⟩
            · exact ih _ _ hrec c hc2
        · rw [if_neg hcd] at h; cases h

theorem chunkOK_ne_nil {c : List Nat} (h : ChunkOK c) : c ≠ [] := by
  cases c with
  | nil => cases h
  | cons b r => simp

theorem chunkOK_length {c : List Nat} (h : ChunkOK c) : c.length = charLen (c.headD 0) := by
  cases c with
  | nil => cases h
  | cons b r =>
    obtain ⟨h1, h2, h3⟩ := h
    have : 1 ≤ charLen b := by unfold charLen; split <;> [omega; (split <;> [omega; (split <;> omega)])]
    simp [h3]
    omega

theorem chunks_of_chunkOK :
    ∀ (cs : List (List Nat)), (∀ c ∈ cs, ChunkOK c) → chunks cs.flatten = some cs := by
  intro cs
  induction cs with
  | nil => intro _; rfl
  | cons c cs ih =>
    intro hOK
    have hcOK : ChunkOK c := hOK c (List.mem_cons_self c cs)
    cases c with
    | nil => cases hcOK
    | cons b rc =>
      obtain ⟨h1, h2, h3⟩ := hcOK
      have hflat : ((b :: rc) :: cs).flatten = b :: (rc ++ cs.flatten) := by simp
      rw [hflat]
      unfold chunks
      have hlen : (b :: (rc ++ cs.flatten)).length = (rc ++ cs.flatten).length + 1 := by simp
      rw [hlen]
      simp only [chunksF]
      rw [if_neg (by rw [h1]; simp)]
      have htake : (rc ++ cs.flatten).take (charLen b - 1) = rc := List.take_left' h3
      have hdrop : (rc ++ cs.flatten).drop (charLen b - 1) = cs.flatten := List.drop_left' h3
      rw [if_pos (by rw [htake]; exact ⟨h3, h2⟩)]
      rw [hdrop, htake]
      have hrest : chunksF (rc ++ cs.flatten).length cs.flatten = some cs := by
        rw [chunksF_fuel_eq _ cs.flatten.length _ (by simp) (Nat.le_refl _)]
        exact ih (fun c hc => hOK c (List.mem_cons_of_mem _ hc))
      rw [hrest]
      rfl

theorem chunks_flatten {s : List Nat} {cs : List (List Nat)} (h : chunks s = some cs) :
    cs.flatten = s :=
  chunksF_flatten _ _ _ h

theorem chunks_chunkOK {s : List Nat} {cs : List (List Nat)} (h : chunks s = some cs) :
    ∀ c ∈ cs, ChunkOK c :=
  chunksF_chunkOK _ _ _ h

theorem chunks_append {a b : List Nat} {ca cb : List (List Nat)}
    (ha : chunks a = some ca) (hb : chunks b = some cb) :
    chunks (a ++ b) = some (ca ++ cb) := by
  have h1 : (ca ++ cb).flatten = a ++ b := by
    rw [List.flatten_append, chunks_flatten ha, chunks_flatten hb]
  have h2 : ∀ c ∈ ca ++ cb, ChunkOK c := by
    intro c hc
    rcases List.mem_append.1 hc with h | h
    · exact chunks_chunkOK ha c h
    · exact chunks_chunkOK hb c h
  rw [← h1]
  exact chunks_of_chunkOK _ h2

theorem flatten_head_ok (cs : List (List Nat)) (hOK : ∀ c ∈ cs, ChunkOK c) :
    cs.flatten = [] ∨ contByte (cs.flatten.headD 0) = false := by
  induction cs with
  | nil => exact Or.inl rfl
  | cons c cs ih =>
    have hcOK : ChunkOK c := hOK c (List.mem_cons_self c cs)
    cases c with
    | nil => cases hcOK
    | cons b rc =>
      right
      simp [hcOK.1]

theorem boundary_append (c F : List Nat) (j : Nat) (hc : c ≠ [])
    (hF : F = [] ∨ contByte (F.headD 0) = false) :
    isCharBoundary (c ++ F) (c.length + j) = isCharBoundary F j := by
  have hclen : 1 ≤ c.length := List.length_pos.2 hc
  have hgd : j < F.length → (c ++ F).getD (c.length + j) 0 = F.getD j 0 := by
    intro _
    rw [List.getD_append_right c F 0 (c.length + j) (by omega)]
    congr 1
    omega
  by_cases hFnil : F = []
  · subst hFnil
    by_cases hj0 : j = 0
    · subst hj0
      have hL : isCharBoundary (c ++ []) (c.length + 0) = true := by
        unfold isCharBoundary
        rw [if_neg (by omega), if_neg (by simp)]
        simp
      rw [hL]
      rfl
    · have hL : isCharBoundary (c ++ []) (c.length + j) = false := by
        unfold isCharBoundary
        rw [if_neg (by omega), if_neg (by simp)]
        simp only [List.append_nil, decide_eq_false_iff_not]
        omega
      have hR : isCharBoundary [] j = false := by
        unfold isCharBoundary
        rw [if_neg hj0, if_neg (by simp)]
        simp [hj0]
      rw [hL, hR]
  · have hFlen : 1 ≤ F.length := List.length_pos.2 hFnil
    have hhead : contByte (F.headD 0) = false := hF.resolve_left hFnil
    by_cases hj0 : j = 0
    · subst hj0
      have hR : isCharBoundary F 0 = true := by
        unfold isCharBoundary
        rw [if_pos rfl]
      have hL : isCharBoundary (c ++ F) (c.length + 0) = true := by
        unfold isCharBoundary
        rw [if_neg (by omega), if_pos (by simp; omega), hgd (by omega)]
        cases F with
        | nil => exact absurd rfl hFnil
        | cons x l =>
          simp only [List.getD_cons_zero]
          simp only [List.headD_cons] at hhead
          simp [hhead]
      rw [hL, hR]
    · by_cases hrange : j < F.length
      · have hL : isCharBoundary (c ++ F) (c.length + j)
            = !contByte ((c ++ F).getD (c.length + j) 0) := by
          unfold isCharBoundary
          rw [if_neg (by omega), if_pos (by simp; omega)]
        have hR : isCharBoundary F j = !contByte (F.getD j 0) := by
          unfold isCharBoundary
          rw [if_neg hj0, if_pos hrange]
        rw [hL, hR, hgd hrange]
      · have hL : isCharBoundary (c ++ F) (c.length + j)
            = decide (c.length + j = (c ++ F).length) := by
          unfold isCharBoundary
          rw [if_neg (by omega), if_neg (by simp; omega)]
        have hR : isCharBoundary F j = decide (j = F.length) := by
          unfold isCharBoundary
          rw [if_neg hj0, if_neg hrange]
        rw [hL, hR]
        simp only [List.length_append, decide_eq_decide]
        omega

theorem boundary_iff_split (cs : List (List Nat)) (hOK : ∀ c ∈ cs, ChunkOK c) (i : Nat) :
    isCharBoundary cs.flatten i = true ↔ ∃ c1 c2, cs = c1 ++ c2 ∧ i = c1.flatten.length := by
  induction cs generalizing i with
  | nil =>
    simp only [List.flatten_nil]
    constructor
    · intro h
      have : i = 0 := by
        by_cases h0 : i = 0
        · exact h0
        · unfold isCharBoundary at h
          rw [if_neg h0, if_neg (by simp)] at h
          simpa using h
      exact ⟨[], [], rfl, by simp [this]⟩
    · rintro ⟨c1, c2, h1, h2⟩
      have : c1 = [] := by
        cases c1 with
        | nil => rfl
        | cons x l => simp at h1
      subst this
      simp at h2
      subst h2
      rfl
  | cons c cs ih =>
    have hcOK : ChunkOK c := hOK c (List.mem_cons_self c cs)
    have hcsOK : ∀ d ∈ cs, ChunkOK d := fun d hd => hOK d (List.mem_cons_of_mem _ hd)
    have hcne : c ≠ [] := chunkOK_ne_nil hcOK
    have hclen : 1 ≤ c.length := by
      cases c with
      | nil => exact absurd rfl hcne
      | cons x l => simp
    simp only [List.flatten_cons]
    by_cases hi : i < c.length
    · cases Nat.eq_zero_or_pos i with
      | inl h0 =>
        subst h0
        constructor
        · intro _
          exact ⟨[], c :: cs, rfl, by simp⟩
        · intro _
          unfold isCharBoundary
          rw [if_pos rfl]
      | inr hpos =>
        have hlhs : isCharBoundary (c ++ cs.flatten) i = false := by
          unfold isCharBoundary
          rw [if_neg (by omega), if_pos (by simp; omega)]
          cases c with
          | nil => exact absurd rfl hcne
          | cons b rc =>
            obtain ⟨h1, h2, h3⟩ := hcOK
            have hgd : ((b :: rc) ++ cs.flatten).getD i 0 = rc.getD (i - 1) 0 := by
              cases i with
              | zero => omega
              | succ n =>
                simp only [List.cons_append, List.getD_cons_succ]
                rw [List.getD_append _ _ _ _ (by simp at hi; omega)]
                try rfl
            rw [hgd]
            have hmem : rc.getD (i - 1) 0 ∈ rc := getD_mem (by simp at hi; omega)
            have hct := List.all_eq_true.1 h2 _ hmem
            rw [hct]
            rfl
        rw [hlhs]
        constructor
        · intro h; cases h
        · rintro ⟨c1, c2, h1, h2⟩
          cases c1 with
          | nil => simp at h2; omega
          | cons d c1 =>
            simp only [List.cons_append] at h1
            rw [List.cons_eq_cons] at h1
            obtain ⟨rfl, _⟩ := h1
            simp only [List.flatten_cons, List.length_append] at h2
            omega
    · obtain ⟨j, rfl⟩ : ∃ j, i = c.length + j := ⟨i - c.length, by omega⟩
      rw [boundary_append c cs.flatten j hcne (flatten_head_ok cs hcsOK)]
      rw [ih hcsOK]
      constructor
      · rintro ⟨c1, c2, rfl, rfl⟩
        exact ⟨c :: c1, c2, rfl, by simp⟩
      · rintro ⟨c1, c2, h1, h2⟩
        cases c1 with
        | nil =>
          exfalso
          simp only [List.flatten_nil, List.length_nil] at h2
          omega
        | cons d c1 =>
          simp only [List.cons_append] at h1
          rw [List.cons_eq_cons] at h1
          obtain ⟨rfl, rfl⟩ := h1
          refine ⟨c1, c2, rfl, ?_⟩
          simp only [List.flatten_cons, List.length_append] at h2
          omega

theorem chunks_isPrefixChunks :
    ∀ (cq : List (List Nat)) (cs : List (List Nat)),
      (∀ c ∈ cq, ChunkOK c) → (∀ c ∈ cs, ChunkOK c) →
      startsWithB cs.flatten cq.flatten = true → ∃ cr, cs = cq ++ cr := by
  intro cq
  induction cq with
  | nil => intro cs _ _ _; exact ⟨cs, rfl⟩
  | cons c cq ih =>
    intro cs hq hs hpre
    have hcOK : ChunkOK c := hq c (List.mem_cons_self c cq)
    have hcne : c ≠ [] := chunkOK_ne_nil hcOK
    obtain ⟨r, hr⟩ := (startsWithB_iff _ _).1 hpre
    cases cs with
    | nil =>
      exfalso
      simp only [List.flatten_nil, List.flatten_cons] at hr
      cases c with
      | nil => exact hcne rfl
      | cons b rc => simp at hr
    | cons d cs =>
      have hdOK : ChunkOK d := hs d (List.mem_cons_self d cs)
      have heads : d.headD 0 = c.headD 0 := by
        cases c with
        | nil => exact absurd rfl hcne
        | cons b rc =>
          cases d with
          | nil => cases hdOK
          | cons b2 rd =>
            simp only [List.flatten_cons, List.cons_append, List.append_assoc] at hr
            rw [List.cons_eq_cons] at hr
            simp [hr.1]
      have hlen : d.length = c.length := by
        rw [chunkOK_length hdOK, chunkOK_length hcOK, heads]
      simp only [List.flatten_cons] at hr
      rw [List.append_assoc] at hr
      have := List.append_inj hr.symm (by omega)
      obtain ⟨rfl, htail⟩ := this
      obtain ⟨cr, hcr⟩ := ih cs (fun x hx => hq x (List.mem_cons_of_mem _ hx))
        (fun x hx => hs x (List.mem_cons_of_mem _ hx))
        ((startsWithB_iff _ _).2 ⟨r, htail.symm⟩)
      exact ⟨cr, by rw [hcr]; rfl⟩

theorem boundary_add_of_prefix {t q : List Nat} {p : Nat}
    (ht : ValidUtf8 t) (hq : ValidUtf8 q)
    (hp : isCharBoundary t p = true) (hpre : startsWithB (t.drop p) q = true) :
    isCharBoundary t (p + q.length) = true := by
  obtain ⟨ct, hct⟩ := Option.isSome_iff_exists.1 ht
  obtain ⟨cq, hcq⟩ := Option.isSome_iff_exists.1 hq
  have htf : ct.flatten = t := chunks_flatten hct
  have hqf : cq.flatten = q := chunks_flatten hcq
  have htOK := chunks_chunkOK hct
  have hqOK := chunks_chunkOK hcq
  rw [← htf] at hp ⊢
  obtain ⟨c1, c2, rfl, rfl⟩ := (boundary_iff_split ct htOK _).1 hp
  have hdrop : (c1 ++ c2).flatten.drop c1.flatten.length = c2.flatten := by
    rw [List.flatten_append]
    exact List.drop_left _ _
  rw [← htf, hdrop] at hpre
  rw [← hqf] at hpre
  obtain ⟨cr, rfl⟩ := chunks_isPrefixChunks cq c2 hqOK
    (fun c hc => htOK c (List.mem_append.2 (Or.inr hc))) hpre
  rw [boundary_iff_split _ htOK]
  refine ⟨c1 ++ cq, cr, by rw [List.append_assoc], ?_⟩
  rw [List.flatten_append, List.length_append, hqf]

/-! ## Claim C1: search correctness -/

theorem startsWithB_drop_iff (t q : List Nat) (p : Nat) (hp : p ≤ t.length) :
    startsWithB (t.drop p) q = true ↔
      p + q.length ≤ t.length ∧ sliceB t p (p + q.length) = q := by
  rw [startsWithB_take_iff]
  have h1 : (t.drop p).length = t.length - p := List.length_drop p t
  have h2 : (t.drop p).take q.length = sliceB t p (p + q.length) := by
    unfold sliceB
    rw [List.drop_take]
    congr 1
    omega
  rw [h1, h2]
  constructor
  · rintro ⟨ha, hb⟩; exact ⟨by omega, hb⟩
  · rintro ⟨ha, hb⟩; exact ⟨by omega, hb⟩

theorem matchAtB_eq_of_valid {t q : List Nat} (ht : ValidUtf8 t) (hq : ValidUtf8 q)
    {p : Nat} (hp : p ≤ t.length) :
    matchAtB t q p = (isCharBoundary t p && startsWithB (t.drop p) q) := by
  rw [Bool.eq_iff_iff]
  unfold matchAtB
  simp only [Bool.and_eq_true, decide_eq_true_eq]
  constructor
  · rintro ⟨⟨⟨hle, hbp⟩, _⟩, hslice⟩
    exact ⟨hbp, (startsWithB_drop_iff t q p hp).2 ⟨hle, hslice⟩⟩
  · rintro ⟨hbp, hst⟩
    obtain ⟨hle, hslice⟩ := (startsWithB_drop_iff t q p hp).1 hst
    exact ⟨⟨⟨hle, hbp⟩, boundary_add_of_prefix ht hq hbp hst⟩, hslice⟩

theorem occList_eq_filter {t q : List Nat} (ht : ValidUtf8 t) (hq : ValidUtf8 q)
    (hqne : q.length ≠ 0) :
    occList t q
      = (List.range t.length).filter (fun p => isCharBoundary t p && startsWithB (t.drop p) q) := by
  unfold occList
  rw [List.range_succ, List.filter_append]
  have hlast : List.filter (matchAtB t q) [t.length] = [] := by
    simp only [List.filter_eq_nil_iff, List.mem_singleton]
    rintro a rfl
    unfold matchAtB
    simp only [Bool.and_eq_true, decide_eq_true_eq, not_and]
    intro h
    omega
  rw [hlast, List.append_nil]
  apply List.filter_congr
  intro x hx
  exact matchAtB_eq_of_valid ht hq (Nat.le_of_lt (List.mem_range.1 hx))

theorem occList_sorted (t q : List Nat) : (occList t q).Sorted (· ≤ ·) :=
  (List.sorted_le_range _).filter _

/-- Claim C1: for valid UTF-8 text within the u32 limit and an index built by
`IndexBuilder` (default block size), `positions` never panics; it returns the
empty list when the text is empty, the query is empty, or the query is longer
than the text, and otherwise its output sorted ascending is exactly the list of
byte offsets at which the query matches byte-for-byte with both endpoints on
UTF-8 code-point boundaries (empty when the query does not occur). -/
theorem claim_C1 (t q sa : List Nat) (ht : ValidUtf8 t) (hq : ValidUtf8 q)
    (hlen : t.length ≤ u32Max) (hbuild : defaultBuildSA t = Except.ok sa) :
    ∃ res, positionsRun t sa q = some res ∧
      ((t.length = 0 ∨ q.length = 0 ∨ q.length > t.length) → res = []) ∧
      (t.length ≠ 0 → q.length ≠ 0 → q.length ≤ t.length → sortNat res = occList t q) := by
  have hsa : sa = buildInMemory t t.length := by
    rw [defaultSA_eq t hlen, buildSuffixArray_inMemory t u32Max hlen] at hbuild
    exact (Except.ok.injEq _ _ ▸ hbuild).symm
  subst hsa
  by_cases htriv : t.length = 0 ∨ q.length = 0 ∨ q.length > t.length
  · refine ⟨[], positionsRun_trivial _ _ _ htriv, fun _ => rfl, ?_⟩
    intro h1 h2 h3
    exfalso
    rcases htriv with h | h | h
    · exact h1 h
    · exact h2 h
    · omega
  · push_neg at htriv
    obtain ⟨ht0, hq0, hql⟩ := htriv
    refine ⟨(buildInMemory t t.length).filter (fun i => startsWithB (t.drop i) q),
      positionsRun_main t _ q (goodSA_build t) ht0 hq0 hql, ?_, ?_⟩
    · rintro (h | h | h)
      · exact absurd h ht0
      · exact absurd h hq0
      · omega
    · intro _ _ _
      have hperm : ((buildInMemory t t.length).filter
          (fun i => startsWithB (t.drop i) q)).Perm (occList t q) := by
        unfold buildInMemory
        rw [List.filter_filter]
        refine ((suffixTableSA_perm t).filter _).trans ?_
        rw [occList_eq_filter ht hq hq0]
        rw [List.filter_congr (fun x hx => ?_)]
        have hxlen : x < t.length := List.mem_range.1 hx
        rw [Bool.eq_iff_iff]
        simp only [Bool.and_eq_true, decide_eq_true_eq]
        constructor
        · rintro ⟨h1, _, h3⟩; exact ⟨h3, h1⟩
        · rintro ⟨h1, h2⟩; exact ⟨h2, hxlen, h1⟩
      exact List.eq_of_perm_of_sorted
        ((List.perm_insertionSort _ _).trans hperm)
        (List.sorted_insertionSort _ _)
        (occList_sorted t q)

/-- Witness for C1 at a concrete input: the two-byte text "ab" with query "a". -/
theorem claim_C1_witness :
    ∃ res, positionsRun [97, 98] (buildSuffixArray [97, 98] u32Max) [97] = some res ∧
      (([97, 98] : List Nat).length = 0 ∨ ([97] : List Nat).length = 0
          ∨ ([97] : List Nat).length > ([97, 98] : List Nat).length → res = []) ∧
      (([97, 98] : List Nat).length ≠ 0 → ([97] : List Nat).length ≠ 0 →
        ([97] : List Nat).length ≤ ([97, 98] : List Nat).length →
        sortNat res = occList [97, 98] [97]) :=
  claim_C1 [97, 98] [97] (buildSuffixArray [97, 98] u32Max)
    (by decide) (by decide) (by decide) rfl

/-! ## Claims C2 and C3: the external-memory build is broken -/

/-- Claim C2 is violated by the code: on the six-byte ASCII text "aaaaab" with
block size 2, the external path emits suffix 1 before suffix 0, although the
suffix at 0 is lexicographically smaller; consecutive entries of the produced
array are therefore not in ascending suffix order.  The tail-extension rule of
`calc_tail_len` only excludes tail prefixes occurring fully inside the block,
so an occurrence straddling the block end leaves two in-block suffixes
extended-window-equal while their true order differs. -/
theorem claim_C2_code_bug :
    buildSuffixArray cexText 2 = [1, 0, 2, 3, 4, 5] ∧
      ¬ SuffixSorted cexText (buildSuffixArray cexText 2) ∧
      lexLt (cexText.drop 0) (cexText.drop 1) ∧
      SuffixSorted cexText (buildSuffixArray cexText u32Max) := by
  refine ⟨by decide, by decide, by decide, by decide⟩

/-- Claim C3 is violated by the code: on the text "aaaaab" the block-partition
path with block size 2 and the single in-memory sort produce different
sequences. -/
theorem claim_C3_code_bug :
    buildSuffixArray cexText 2 ≠ buildSuffixArray cexText u32Max ∧
      buildSuffixArray cexText 2 = [1, 0, 2, 3, 4, 5] ∧
      buildSuffixArray cexText u32Max = [0, 1, 2, 3, 4, 5] := by
  refine ⟨by decide, by decide, by decide⟩

/-! ## Serialization lemmas and claims C7, C8 -/

theorem bytesToU32s_isSome_iff (b : List Nat) : (bytesToU32s b).isSome = true ↔ 4 ∣ b.length := by
  induction b using bytesToU32s.induct with
  | case1 => simp [bytesToU32s]
  | case2 b0 b1 b2 b3 rest ih =>
    simp only [bytesToU32s, List.length_cons]
    cases hrec : bytesToU32s rest with
    | none =>
      rw [hrec] at ih
      simp only [Option.map_none', Option.isSome_none] at ih ⊢
      simp only [Bool.false_eq_true, false_iff] at ih ⊢
      omega
    | some l =>
      rw [hrec] at ih
      simp only [Option.map_some', Option.isSome_some] at ih ⊢
      simp only [true_iff] at ih ⊢
      omega
  | case3 t h1 h2 =>
    have hshape : bytesToU32s t = none ∧ ¬ 4 ∣ t.length := by
      cases t with
      | nil => exact absurd rfl h1
      | cons a t1 =>
        cases t1 with
        | nil => exact ⟨rfl, by simp only [List.length_cons, List.length_nil]; omega⟩
        | cons b2 t2 =>
          cases t2 with
          | nil => exact ⟨rfl, by simp only [List.length_cons, List.length_nil]; omega⟩
          | cons c t3 =>
            cases t3 with
            | nil => exact ⟨rfl, by simp only [List.length_cons, List.length_nil]; omega⟩
            | cons d t4 => exact absurd rfl (h2 a b2 c d t4)
    rw [hshape.1]
    simpa using hshape.2

theorem bytesToU32s_length :
    ∀ (b l : List Nat), bytesToU32s b = some l → l.length = b.length / 4 := by
  intro b
  induction b using bytesToU32s.induct with
  | case1 => intro l h; cases h; rfl
  | case2 b0 b1 b2 b3 rest ih =>
    intro l h
    simp only [bytesToU32s] at h
    cases hrec : bytesToU32s rest with
    | none => rw [hrec] at h; cases h
    | some l2 =>
      rw [hrec] at h
      simp only [Option.map_some'] at h
      cases h
      have := ih l2 hrec
      simp only [List.length_cons, this]
      omega
  | case3 t h1 h2 =>
    intro l h
    cases t with
    | nil => exact absurd rfl h1
    | cons a t1 =>
      cases t1 with
      | nil => cases h
      | cons b2 t2 =>
        cases t2 with
        | nil => cases h
        | cons c t3 =>
          cases t3 with
          | nil => cases h
          | cons d t4 => exact absurd rfl (h2 a b2 c d t4)

theorem serializeSA_length (sa : List Nat) : (serializeSA sa).length = 4 * sa.length := by
  induction sa with
  | nil => rfl
  | cons x sa ih =>
    simp only [serializeSA, List.map_cons, List.flatten_cons, List.length_append] at *
    rw [ih]
    simp [u32le]
    omega

theorem bytesToU32s_serialize (sa : List Nat) (hb : ∀ x ∈ sa, x < 4294967296) :
    bytesToU32s (serializeSA sa) = some sa := by
  induction sa with
  | nil => rfl
  | cons x sa ih =>
    have hser : serializeSA (x :: sa)
        = x % 256 :: (x / 256 % 256 :: (x / 65536 % 256 :: (x / 16777216 % 256
            :: serializeSA sa))) := by
      simp [serializeSA, u32le]
    rw [hser]
    simp only [bytesToU32s]
    rw [ih (fun y hy => hb y (List.mem_cons_of_mem _ hy))]
    simp only [Option.map_some', Option.some.injEq, List.cons.injEq, and_true]
    have hx := hb x (List.mem_cons_self x sa)
    omega

theorem emptyGuard_eq (b : List Nat) :
    (if b.isEmpty then some ([] : List Nat) else bytesToU32s b) = bytesToU32s b := by
  cases b <;> rfl

theorem buildInMemory_length_le (s : List Nat) (len : Nat) :
    (buildInMemory s len).length ≤ s.length := by
  unfold buildInMemory
  calc ((suffixTableSA s).filter _).length ≤ (suffixTableSA s).length :=
        List.length_filter_le _ _
    _ = (List.range s.length).length := List.length_insertionSort _ _
    _ = s.length := List.length_range _

/-- Claim C7: building with the default block size, serializing the suffix
array as native-endian u32 values, and deserializing against the same text
succeeds and reproduces the suffix array exactly. -/
theorem claim_C7 (t : List Nat) (hlen : t.length ≤ u32Max) :
    ∃ b, buildToWriterNE t u32Max = Except.ok b ∧
      indexFromBytes t b = Except.ok (buildSuffixArray t u32Max) := by
  have hsa := buildSuffixArray_inMemory t u32Max hlen
  refine ⟨serializeSA (buildSuffixArray t u32Max), ?_, ?_⟩
  · unfold buildToWriterNE
    rw [if_neg (by omega), if_neg (by unfold u32Max; omega)]
  · unfold indexFromBytes
    rw [if_neg (by omega), emptyGuard_eq]
    have hentries : ∀ x ∈ buildSuffixArray t u32Max, x < 4294967296 := by
      intro x hx
      rw [hsa] at hx
      have h1 := ((buildInMemory_mem t t.length x).1 hx).1
      unfold u32Max at hlen
      omega
    rw [bytesToU32s_serialize _ hentries]
    simp only [Option.elim_some]
    rw [if_neg (by
      push_neg
      rw [hsa]
      exact buildInMemory_length_le t t.length)]

/-- Witness for C7 at the concrete text "ab". -/
theorem claim_C7_witness :
    ∃ b, buildToWriterNE [97, 98] u32Max = Except.ok b ∧
      indexFromBytes [97, 98] b = Except.ok (buildSuffixArray [97, 98] u32Max) :=
  claim_C7 [97, 98] (by decide)

/-- Claim C8: `Index::from_bytes` returns `TextTooLong` exactly when the text
exceeds `u32::MAX` bytes; otherwise it returns `InvalidIndex` exactly when the
buffer length is not a multiple of 4 or the decoded array would be longer than
the text; otherwise it succeeds with the buffer reinterpreted as packed
native-endian u32 values (an empty buffer giving an empty suffix array). -/
theorem claim_C8 (t b : List Nat) :
    (indexFromBytes t b = Except.error SufError.textTooLong ↔ t.length > u32Max) ∧
    (t.length ≤ u32Max →
      (indexFromBytes t b = Except.error SufError.invalidIndex ↔
        ¬ (4 ∣ b.length) ∨ b.length / 4 > t.length)) ∧
    (t.length ≤ u32Max → (4 ∣ b.length) → b.length / 4 ≤ t.length →
      ∃ sa, bytesToU32s b = some sa ∧ indexFromBytes t b = Except.ok sa ∧
        sa.length = b.length / 4) := by
  unfold indexFromBytes
  rw [emptyGuard_eq]
  by_cases hT : t.length > u32Max
  · rw [if_pos hT]
    refine ⟨by simp [hT], fun h => absurd hT (by omega), fun h => absurd hT (by omega)⟩
  · rw [if_neg hT]
    push_neg at hT
    refine ⟨?_, fun _ => ?_, fun _ hdvd hle => ?_⟩
    · constructor
      · intro h
        exfalso
        cases hm : bytesToU32s b with
        | none =>
          rw [hm] at h
          simp only [Option.elim_none] at h
          cases h
        | some sa =>
          rw [hm] at h
          simp only [Option.elim_some] at h
          by_cases hgt : sa.length > t.length
          · rw [if_pos hgt] at h; cases h
          · rw [if_neg hgt] at h; cases h
      · intro h; omega
    · cases hm : bytesToU32s b with
      | none =>
        simp only [hm, Option.elim_none]
        have hnd : ¬ 4 ∣ b.length := by
          rw [← bytesToU32s_isSome_iff, hm]
          simp
        simp [hnd]
      | some sa =>
        have hdvd : 4 ∣ b.length := by
          rw [← bytesToU32s_isSome_iff, hm]
          rfl
        have hlen2 : sa.length = b.length / 4 := bytesToU32s_length b sa hm
        simp only [hm, Option.elim_some]
        by_cases hgt : sa.length > t.length
        · rw [if_pos hgt]
          simp only [true_iff]
          exact Or.inr (by omega)
        · rw [if_neg hgt]
          constructor
          · intro h; cases h
          · rintro (h | h)
            · exact absurd hdvd h
            · omega
    · cases hm : bytesToU32s b with
      | none =>
        exfalso
        have hS : (bytesToU32s b).isSome = true := (bytesToU32s_isSome_iff b).2 hdvd
        rw [hm] at hS
        cases hS
      | some sa =>
        have hlen2 : sa.length = b.length / 4 := bytesToU32s_length b sa hm
        refine ⟨sa, rfl, ?_, hlen2⟩
        simp only [hm, Option.elim_some]
        rw [if_neg (by omega)]

/-- Witness for C8: a one-byte text with a four-byte buffer decodes to the
suffix array [0]. -/
theorem claim_C8_witness :
    ([97] : List Nat).length ≤ u32Max ∧ (4 ∣ ([0, 0, 0, 0] : List Nat).length) ∧
      ([0, 0, 0, 0] : List Nat).length / 4 ≤ ([97] : List Nat).length ∧
      ∃ sa, bytesToU32s [0, 0, 0, 0] = some sa ∧
        indexFromBytes [97] [0, 0, 0, 0] = Except.ok sa ∧
        sa.length = ([0, 0, 0, 0] : List Nat).length / 4 :=
  ⟨by decide, by decide, by decide,
    (claim_C8 [97] [0, 0, 0, 0]).2.2 (by decide) (by decide) (by decide)⟩

/-! ## Claim C10: positions on an empty suffix array -/

/-- Claim C10: `positions` is total on every builder-produced index (its
suffix array is nonempty whenever the text is), but `Index::from_bytes`
accepts a non-empty text paired with an empty byte buffer, and on the
resulting index `positions` with a short non-empty query reads
`suffix_array[0]` out of bounds (modelled as `none`). -/
theorem claim_C10 :
    (∀ t q sa, defaultBuildSA t = Except.ok sa →
      (t.length ≠ 0 → sa ≠ []) ∧ ∃ res, positionsRun t sa q = some res) ∧
    indexFromBytes [97, 98] [] = Except.ok [] ∧
    positionsRun [97, 98] [] [97] = none := by
  refine ⟨?_, rfl, by decide⟩
  intro t q sa hbuild
  have hT : t.length ≤ u32Max := by
    by_contra hgt
    push_neg at hgt
    unfold defaultBuildSA indexBuilderBuild at hbuild
    rw [if_pos hgt] at hbuild
    cases hbuild
  have hsa : sa = buildInMemory t t.length := by
    rw [defaultSA_eq t hT, buildSuffixArray_inMemory t u32Max hT] at hbuild
    exact (Except.ok.injEq _ _ ▸ hbuild).symm
  subst hsa
  constructor
  · intro ht0 hnil
    have h0 : (0 : Nat) ∈ buildInMemory t t.length :=
      (buildInMemory_mem t t.length 0).2 ⟨by omega, by omega, by simp [isCharBoundary]⟩
    rw [hnil] at h0
    cases h0
  · by_cases htriv : t.length = 0 ∨ q.length = 0 ∨ q.length > t.length
    · exact ⟨[], positionsRun_trivial _ _ _ htriv⟩
    · push_neg at htriv
      exact ⟨_, positionsRun_main t _ q (goodSA_build t) htriv.1 htriv.2.1 htriv.2.2⟩

/-- Witness for C10 at the one-byte text "a". -/
theorem claim_C10_witness :
    (([97] : List Nat).length ≠ 0 → buildSuffixArray [97] u32Max ≠ []) ∧
      ∃ res, positionsRun [97] (buildSuffixArray [97] u32Max) [97] = some res :=
  claim_C10.1 [97] [97] (buildSuffixArray [97] u32Max) rfl

/-! ## Claim C5: MultiDocIndex::from_bytes footer validation -/

theorem indexFromBytes_error_eq {t x : List Nat} {e : SufError} (hT : t.length ≤ u32Max)
    (h : indexFromBytes t x = Except.error e) : e = SufError.invalidIndex := by
  unfold indexFromBytes at h
  rw [if_neg (by omega), emptyGuard_eq] at h
  cases hm : bytesToU32s x with
  | none =>
    rw [hm] at h
    simp only [Option.elim_none] at h
    cases h
    rfl
  | some sa =>
    rw [hm] at h
    simp only [Option.elim_some] at h
    by_cases hgt : sa.length > t.length
    · rw [if_pos hgt] at h
      cases h
      rfl
    · rw [if_neg hgt] at h
      cases h

/-- Counterexample to claim C5 as stated: on the empty buffer (fewer than 12
bytes, hence certainly of the wrong size) `MultiDocIndex::from_bytes` panics
on the footer slice instead of returning `InvalidIndex`. -/
theorem claim_C5_counterexample :
    multiFromBytes [] [] = none ∧
      ¬ multiFromBytes [] [] = some (Except.error SufError.invalidIndex) := by
  refine ⟨rfl, ?_⟩
  intro h
  exact Option.noConfusion h

/-- Claim C5 amended: restricted to buffers of at least 12 bytes and text
within the u32 limit, `from_bytes` returns `InvalidIndex` whenever the buffer
length differs from the size announced by the footer, and also whenever the
length matches but the delimiter bytes are not valid UTF-8 or are not exactly
one code point; a buffer shorter than 12 bytes panics instead. -/
theorem claim_C5_amended (t b : List Nat) (hb : 12 ≤ b.length) (hT : t.length ≤ u32Max) :
    (b.length ≠ multiExpectedSize b →
      multiFromBytes t b = some (Except.error SufError.invalidIndex)) ∧
    (b.length = multiExpectedSize b →
      (∀ cs, chunks (multiDelimBytes b) = some cs → cs.length ≠ 1) →
      multiFromBytes t b = some (Except.error SufError.invalidIndex)) := by
  constructor
  · intro hsize
    unfold multiFromBytes
    rw [if_neg (by omega), if_pos hsize]
  · intro hsize hdelim
    unfold multiFromBytes
    rw [if_neg (by omega), if_neg (by rw [hsize]; exact fun hc => hc rfl)]
    cases hidx : indexFromBytes t (b.take (4 * u32At (footerOf b) 0)) with
    | error e =>
      have he : e = SufError.invalidIndex := indexFromBytes_error_eq hT hidx
      subst he
      rfl
    | ok sa =>
      have hofflen : (((b.drop (4 * u32At (footerOf b) 0)).take
          (4 * u32At (footerOf b) 4))).length = 4 * u32At (footerOf b) 4 := by
        rw [List.length_take, List.length_drop]
        have := hsize
        unfold multiExpectedSize at this
        omega
      have hoff : (bytesToU32s ((b.drop (4 * u32At (footerOf b) 0)).take
          (4 * u32At (footerOf b) 4))).isSome = true := by
        rw [bytesToU32s_isSome_iff, hofflen]
        exact ⟨_, rfl⟩
      cases hbo : bytesToU32s ((b.drop (4 * u32At (footerOf b) 0)).take
          (4 * u32At (footerOf b) 4)) with
      | none => rfl
      | some offsets =>
        cases hch : chunks (multiDelimBytes b) with
        | none => rfl
        | some cs =>
          have hne := hdelim cs hch
          show (if cs.length ≠ 1 then some (Except.error SufError.invalidIndex)
              else some (Except.ok (sa, offsets, cs.getD 0 [])))
            = some (Except.error SufError.invalidIndex)
          rw [if_pos hne]

/-- Witness for C5 amended: a 13-byte zero buffer has the wrong size and is
rejected, and a 12-byte zero buffer (matching size, empty delimiter, zero code
points) is rejected too. -/
theorem claim_C5_amended_witness :
    multiFromBytes [] [0, 0, 0, 0, 0, 0, 0, 0, 0, 0, 0, 0, 0]
        = some (Except.error SufError.invalidIndex) ∧
      multiFromBytes [] [0, 0, 0, 0, 0, 0, 0, 0, 0, 0, 0, 0]
        = some (Except.error SufError.invalidIndex) := by
  constructor
  · exact (claim_C5_amended [] _ (by decide) (by decide)).1 (by decide)
  · refine (claim_C5_amended [] _ (by decide) (by decide)).2 (by decide) ?_
    intro cs hcs
    have hcs2 : cs = [] := (Option.some.inj hcs).symm
    subst hcs2
    decide

/-! ## Claim C9: live merge cursors never compare equal -/

theorem pickMin_none_iff (t : List Nat) (st : List (Nat × List Nat)) :
    pickMin t st = none ↔ st = [] := by
  cases st with
  | nil => simp [pickMin]
  | cons c cs =>
    simp only [pickMin]
    constructor
    · intro h
      cases hp : pickMin t cs with
      | none => rw [hp] at h; cases h
      | some p =>
        rw [hp] at h
        obtain ⟨m, rest⟩ := p
        have h2 : (if cmpBytes (t.drop (frontOffset c)) (t.drop (frontOffset m)) = Ordering.gt
            then some (m, c :: rest) else some (c, cs)) = none := h
        by_cases hc : cmpBytes (t.drop (frontOffset c)) (t.drop (frontOffset m)) = Ordering.gt
        · rw [if_pos hc] at h2; cases h2
        · rw [if_neg hc] at h2; cases h2
    · intro h; cases h

theorem pickMin_perm (t : List Nat) :
    ∀ (st : List (Nat × List Nat)) (c : Nat × List Nat) (rest : List (Nat × List Nat)),
      pickMin t st = some (c, rest) → st.Perm (c :: rest) := by
  intro st
  induction st with
  | nil => intro c rest h; cases h
  | cons c0 cs ih =>
    intro c rest h
    simp only [pickMin] at h
    cases hp : pickMin t cs with
    | none =>
      rw [hp] at h
      have hcs : cs = [] := (pickMin_none_iff t cs).1 hp
      subst hcs
      cases h
      exact List.Perm.refl _
    | some p =>
      obtain ⟨m, rest0⟩ := p
      rw [hp] at h
      have h3 : (if cmpBytes (t.drop (frontOffset c0)) (t.drop (frontOffset m)) = Ordering.gt
          then some (m, c0 :: rest0) else some (c0, cs)) = some (c, rest) := h
      by_cases hc : cmpBytes (t.drop (frontOffset c0)) (t.drop (frontOffset m)) = Ordering.gt
      · rw [if_pos hc] at h3
        obtain ⟨h4, h5⟩ := Prod.mk.injEq _ _ _ _ ▸ Option.some.inj h3
        rw [← h4, ← h5]
        have h2 : cs.Perm (m :: rest0) := ih m rest0 hp
        have h6 : (c0 :: cs).Perm (c0 :: m :: rest0) := h2.cons c0
        exact h6.trans (List.Perm.swap m c0 rest0)
      · rw [if_neg hc] at h3
        obtain ⟨h4, h5⟩ := Prod.mk.injEq _ _ _ _ ▸ Option.some.inj h3
        rw [← h4, ← h5]

theorem stateOffsets_perm {st st2 : List (Nat × List Nat)}
    (h : st.Perm st2) : (stateOffsets st).Perm (stateOffsets st2) :=
  (h.map cursorOffsets).flatten

/-- Invariant of the merge loop: pending global offsets are duplicate-free and
in range, and every live cursor still holds an entry. -/
def MergeInv (t : List Nat) (st : List (Nat × List Nat)) : Prop :=
  (stateOffsets st).Nodup ∧ (∀ o ∈ stateOffsets st, o < t.length) ∧ ∀ c ∈ st, c.2 ≠ []

theorem mergeStep_eq_of_pickMin {t : List Nat} {st : List (Nat × List Nat)}
    {c : Nat × List Nat} {rest : List (Nat × List Nat)}
    (hp : pickMin t st = some (c, rest)) :
    mergeStep t st =
      match c.2 with
      | [] => rest
      | _ :: xs => if xs.isEmpty then rest else (c.1, xs) :: rest := by
  unfold mergeStep
  rw [hp]

theorem mergeInv_of_sublist_cons {t : List Nat} {st2 : List (Nat × List Nat)}
    {c : Nat × List Nat} {rest : List (Nat × List Nat)}
    (hnd2 : (stateOffsets (c :: rest)).Nodup)
    (hbound2 : ∀ o ∈ stateOffsets (c :: rest), o < t.length)
    (hsub : (stateOffsets st2).Sublist (stateOffsets (c :: rest)))
    (hne3 : ∀ d ∈ st2, d.2 ≠ []) : MergeInv t st2 :=
  ⟨hsub.nodup hnd2, fun o ho => hbound2 o (hsub.subset ho), hne3⟩

theorem mergeStep_inv {t : List Nat} {st : List (Nat × List Nat)} (h : MergeInv t st) :
    MergeInv t (mergeStep t st) := by
  obtain ⟨hnd, hbound, hne⟩ := h
  cases hp : pickMin t st with
  | none =>
    have hnil : st = [] := (pickMin_none_iff t st).1 hp
    subst hnil
    exact ⟨hnd, hbound, hne⟩
  | some p =>
    obtain ⟨c, rest⟩ := p
    rw [mergeStep_eq_of_pickMin hp]
    have hperm : st.Perm (c :: rest) := pickMin_perm t st c rest hp
    have hoffperm : (stateOffsets st).Perm (stateOffsets (c :: rest)) := stateOffsets_perm hperm
    have hnd2 : (stateOffsets (c :: rest)).Nodup := hoffperm.nodup_iff.1 hnd
    have hbound2 : ∀ o ∈ stateOffsets (c :: rest), o < t.length := fun o ho =>
      hbound o (hoffperm.mem_iff.2 ho)
    have hne2 : ∀ d ∈ c :: rest, d.2 ≠ [] := fun d hd => hne d (hperm.mem_iff.2 hd)
    have hrest_sub : (stateOffsets rest).Sublist (stateOffsets (c :: rest)) := by
      simp only [stateOffsets, List.map_cons, List.flatten_cons]
      exact List.sublist_append_right _ _
    have hrest_ne : ∀ d ∈ rest, d.2 ≠ [] := fun d hd =>
      hne2 d (List.mem_cons_of_mem _ hd)
    cases hc2 : c.2 with
    | nil => exact mergeInv_of_sublist_cons hnd2 hbound2 hrest_sub hrest_ne
    | cons x xs =>
      show MergeInv t (if xs.isEmpty then rest else (c.1, xs) :: rest)
      by_cases hxs : xs.isEmpty
      · rw [if_pos hxs]
        exact mergeInv_of_sublist_cons hnd2 hbound2 hrest_sub hrest_ne
      · rw [if_neg hxs]
        refine mergeInv_of_sublist_cons hnd2 hbound2 ?_ ?_
        · simp only [stateOffsets, List.map_cons, List.flatten_cons]
          refine List.Sublist.append ?_ (List.Sublist.refl _)
          simp only [cursorOffsets, hc2, List.map_cons]
          exact List.sublist_cons_self _ _
        · intro d hd
          rcases List.mem_cons.1 hd with rfl | hd2
          · simp only [ne_eq]
            intro hx
            rw [hx] at hxs
            exact hxs rfl
          · exact hrest_ne d hd2

theorem boundary_at_length (t : List Nat) : isCharBoundary t t.length = true := by
  unfold isCharBoundary
  by_cases h0 : t.length = 0
  · rw [if_pos h0]
  · rw [if_neg h0, if_neg (by omega)]
    simp

theorem snapUpGo_le (t : List Nat) :
    ∀ (f i : Nat), i ≤ t.length → t.length - i < f →
      i ≤ snapUpGo t f i ∧ snapUpGo t f i ≤ t.length := by
  intro f
  induction f with
  | zero => intro i _ hf; omega
  | succ f ih =>
    intro i hi hf
    simp only [snapUpGo]
    by_cases hb : isCharBoundary t i
    · rw [if_pos hb]
      exact ⟨Nat.le_refl i, hi⟩
    · rw [if_neg hb]
      have hne : i ≠ t.length := by
        intro h
        rw [h] at hb
        exact hb (boundary_at_length t)
      have := ih (i + 1) (by omega) (by omega)
      exact ⟨by omega, this.2⟩

theorem snapUp_bounds (t : List Nat) (i : Nat) (hi : i ≤ t.length) :
    i ≤ snapUp t i ∧ snapUp t i ≤ t.length :=
  snapUpGo_le t (t.length + 1) i hi (by omega)

theorem blockEnds_le (t : List Nat) (bs b0 : Nat) (hb : b0 ≤ t.length) :
    b0 ≤ (blockEnds t bs b0).1 ∧ (blockEnds t bs b0).1 ≤ t.length ∧
      (blockEnds t bs b0).1 ≤ (blockEnds t bs b0).2 := by
  unfold blockEnds
  have hsnap := snapUp_bounds t (min (b0 + bs) t.length) (by omega)
  by_cases h1 : snapUp t (min (b0 + bs) t.length) = t.length
  · rw [if_pos h1]
    refine ⟨?_, hsnap.2, Nat.le_refl _⟩
    show b0 ≤ snapUp t (min (b0 + bs) t.length)
    omega
  · rw [if_neg h1]
    cases hct : calcTailLen (sliceB t b0 (snapUp t (min (b0 + bs) t.length)))
        (t.drop (snapUp t (min (b0 + bs) t.length))) with
    | some l =>
      refine ⟨?_, ?_, ?_⟩
      · show b0 ≤ snapUp t (min (b0 + bs) t.length)
        omega
      · exact hsnap.2
      · exact Nat.le_add_right _ _
    | none => exact ⟨hb, Nat.le_refl _, Nat.le_refl _⟩

theorem sortBlocksGo_offsets (t : List Nat) (bs : Nat) :
    ∀ (fuel b0 : Nat), b0 ≤ t.length →
      (∀ o ∈ stateOffsets (sortBlocksGo t bs fuel b0), b0 ≤ o ∧ o < t.length) ∧
        (stateOffsets (sortBlocksGo t bs fuel b0)).Nodup := by
  intro fuel
  induction fuel with
  | zero =>
    intro b0 _
    simp [sortBlocksGo, stateOffsets]
  | succ fuel ih =>
    intro b0 hb0
    by_cases hb : b0 < t.length
    · rw [show sortBlocksGo t bs (fuel + 1) b0
          = (b0, buildInMemory (sliceB t b0 (blockEnds t bs b0).2) ((blockEnds t bs b0).1 - b0))
            :: sortBlocksGo t bs fuel (blockEnds t bs b0).1 by
        simp [sortBlocksGo, hb]]
      have hend := blockEnds_le t bs b0 (by omega)
      have ihrec := ih (blockEnds t bs b0).1 hend.2.1
      have hentry : ∀ o ∈ cursorOffsets
          (b0, buildInMemory (sliceB t b0 (blockEnds t bs b0).2) ((blockEnds t bs b0).1 - b0)),
          b0 ≤ o ∧ o < (blockEnds t bs b0).1 := by
        intro o ho
        simp only [cursorOffsets, List.mem_map] at ho
        obtain ⟨x, hx, rfl⟩ := ho
        have hxlt := ((buildInMemory_mem _ _ x).1 hx).2.1
        show b0 ≤ b0 + x ∧ b0 + x < (blockEnds t bs b0).1
        omega
      constructor
      · intro o ho
        simp only [stateOffsets, List.map_cons, List.flatten_cons, List.mem_append] at ho
        rcases ho with ho | ho
        · have := hentry o ho
          omega
        · have := ihrec.1 o ho
          omega
      · simp only [stateOffsets, List.map_cons, List.flatten_cons]
        rw [List.nodup_append]
        refine ⟨?_, ihrec.2, ?_⟩
        · simp only [cursorOffsets]
          refine (buildInMemory_nodup _ _).map ?_
          intro x y hxy
          have hxy2 : b0 + x = b0 + y := hxy
          omega
        · intro o ho ho2
          have h1 := hentry o ho
          have h2 := (ihrec.1 o ho2).1
          omega
    · simp [sortBlocksGo, hb, stateOffsets]

theorem flatten_sublist {l1 l2 : List (List Nat)} (h : l1.Sublist l2) :
    l1.flatten.Sublist l2.flatten := by
  induction h with
  | slnil => exact List.Sublist.refl _
  | cons a h ih =>
    simp only [List.flatten_cons]
    exact ih.trans (List.sublist_append_right _ _)
  | cons₂ a h ih =>
    simp only [List.flatten_cons]
    exact ih.append_left a

theorem initCursors_inv (t : List Nat) (bs : Nat) : MergeInv t (initCursors t bs) := by
  have hsort := sortBlocksGo_offsets t bs (t.length + 1) 0 (Nat.zero_le _)
  have hsub : (stateOffsets (initCursors t bs)).Sublist
      (stateOffsets (sortBlocks t bs)) := by
    unfold initCursors stateOffsets sortBlocks
    exact flatten_sublist ((List.filter_sublist _).map cursorOffsets)
  refine ⟨hsub.nodup hsort.2, fun o ho => (hsort.1 o (hsub.subset ho)).2, ?_⟩
  intro c hc
  unfold initCursors at hc
  have hfc := (List.mem_filter.1 hc).2
  intro hnil
  rw [hnil] at hfc
  cases hfc

theorem mergeStateN_inv (t : List Nat) (bs n : Nat) : MergeInv t (mergeStateN t bs n) := by
  induction n with
  | zero => exact initCursors_inv t bs
  | succ n ih =>
    unfold mergeStateN at *
    rw [Function.iterate_succ_apply']
    exact mergeStep_inv ih

/-- Claim C9: in every state reachable by the k-way merge (on any text and any
block size of at least 1), the live cursors have pairwise distinct global
front offsets, and the byte comparison of any two front suffixes is never
`Ordering.eq`; the `unimplemented!()` equality paths of `Block` are therefore
unreachable and `merge_blocks` cannot panic through them. -/
theorem claim_C9 (t : List Nat) (bs n : Nat) (hbs : 1 ≤ bs) :
    (mergeStateN t bs n).Pairwise (fun c1 c2 =>
      frontOffset c1 ≠ frontOffset c2 ∧
        cmpBytes (t.drop (frontOffset c1)) (t.drop (frontOffset c2)) ≠ Ordering.eq) := by
  obtain ⟨hnd, hbound, hne⟩ := mergeStateN_inv t bs n
  have hdisj : (mergeStateN t bs n).Pairwise
      (fun c1 c2 => (cursorOffsets c1).Disjoint (cursorOffsets c2)) := by
    have := (List.nodup_flatten.1 hnd).2
    exact List.pairwise_map.1 this
  refine hdisj.imp_of_mem ?_
  intro c1 c2 h1 h2 hdis
  have hfront : ∀ c, c ∈ mergeStateN t bs n → frontOffset c ∈ cursorOffsets c := by
    intro c hc
    have hcne := hne c hc
    cases hc2 : c.2 with
    | nil => exact absurd hc2 hcne
    | cons x xs =>
      simp only [cursorOffsets, frontOffset, hc2, List.headD_cons, List.map_cons]
      exact List.mem_cons_self _ _
  have hm1 : frontOffset c1 ∈ cursorOffsets c1 := hfront c1 h1
  have hm2 : frontOffset c2 ∈ cursorOffsets c2 := hfront c2 h2
  have hneq : frontOffset c1 ≠ frontOffset c2 := by
    intro heq
    exact hdis hm1 (heq ▸ hm2)
  refine ⟨hneq, ?_⟩
  have hb1 : frontOffset c1 < t.length := by
    refine hbound _ ?_
    simp only [stateOffsets, List.mem_flatten]
    exact ⟨cursorOffsets c1, List.mem_map_of_mem _ h1, hm1⟩
  have hb2 : frontOffset c2 < t.length := by
    refine hbound _ ?_
    simp only [stateOffsets, List.mem_flatten]
    exact ⟨cursorOffsets c2, List.mem_map_of_mem _ h2, hm2⟩
  apply cmpBytes_ne_eq_of_length
  simp only [List.length_drop]
  omega

/-- Witness for C9 on the counterexample text after one merge step. -/
theorem claim_C9_witness :
    (mergeStateN cexText 2 1).Pairwise (fun c1 c2 =>
      frontOffset c1 ≠ frontOffset c2 ∧
        cmpBytes (cexText.drop (frontOffset c1)) (cexText.drop (frontOffset c2))
          ≠ Ordering.eq) :=
  claim_C9 cexText 2 1 (by decide)

/-! ## Joined multi-document texts: basic algebra -/

theorem validUtf8_nil : ValidUtf8 ([] : List Nat) := by decide

theorem chunks_single_chunk {c : List Nat} (hc : ChunkOK c) : chunks c = some [c] := by
  have h := chunks_of_chunkOK [c] (by
    intro x hx
    rw [List.mem_singleton] at hx
    subst hx
    exact hc)
  have hf : ([c] : List (List Nat)).flatten = c := by simp
  rw [hf] at h
  exact h

theorem validUtf8_of_chunkOK {c : List Nat} (hc : ChunkOK c) : ValidUtf8 c := by
  unfold ValidUtf8
  rw [chunks_single_chunk hc]
  rfl

theorem validUtf8_append {a b : List Nat} (ha : ValidUtf8 a) (hb : ValidUtf8 b) :
    ValidUtf8 (a ++ b) := by
  obtain ⟨ca, hca⟩ := Option.isSome_iff_exists.1 ha
  obtain ⟨cb, hcb⟩ := Option.isSome_iff_exists.1 hb
  unfold ValidUtf8
  rw [chunks_append hca hcb]
  rfl

theorem joinD_nil (delim : List Nat) : joinD [] delim = [] := rfl

theorem joinD_single (d delim : List Nat) : joinD [d] delim = d := by
  simp [joinD, List.intercalate]

theorem joinD_cons₂ (d e delim : List Nat) (rest : List (List Nat)) :
    joinD (d :: e :: rest) delim = d ++ delim ++ joinD (e :: rest) delim := by
  simp [joinD, List.intercalate, List.intersperse]

theorem joinD_valid {delim : List Nat} (hdelim : ChunkOK delim) :
    ∀ docs : List (List Nat), (∀ d ∈ docs, ValidUtf8 d) → ValidUtf8 (joinD docs delim) := by
  intro docs
  induction docs with
  | nil => intro _; exact validUtf8_nil
  | cons d rest ih =>
    intro hval
    have hd : ValidUtf8 d := hval d (List.mem_cons_self d rest)
    cases rest with
    | nil => rw [joinD_single]; exact hd
    | cons e rest' =>
      rw [joinD_cons₂]
      exact validUtf8_append (validUtf8_append hd (validUtf8_of_chunkOK hdelim))
        (ih (fun x hx => hval x (List.mem_cons_of_mem _ hx)))

theorem docStart_zero (docs : List (List Nat)) (delim : List Nat) :
    docStart docs delim 0 = 0 := by
  simp [docStart]

theorem docStart_cons_succ (d delim : List Nat) (rest : List (List Nat)) (k : Nat) :
    docStart (d :: rest) delim (k + 1)
      = d.length + delim.length + docStart rest delim k := by
  unfold docStart
  rw [List.take_succ_cons, List.map_cons, List.sum_cons]

theorem docStart_succ {docs : List (List Nat)} (delim : List Nat) :
    ∀ k, k < docs.length →
      docStart docs delim (k + 1)
        = docStart docs delim k + (docs.getD k []).length + delim.length := by
  induction docs with
  | nil => intro k hk; simp at hk
  | cons d rest ih =>
    intro k hk
    cases k with
    | zero =>
      rw [docStart_cons_succ, docStart_zero, docStart_zero]
      simp only [List.getD_cons_zero]
      omega
    | succ k' =>
      have hk' : k' < rest.length := by simp at hk; omega
      rw [docStart_cons_succ, docStart_cons_succ, ih k' hk', List.getD_cons_succ]
      omega

theorem docStart_mono (docs : List (List Nat)) (delim : List Nat) {i j : Nat} (h : i ≤ j) :
    docStart docs delim i ≤ docStart docs delim j := by
  unfold docStart
  have h1 : docs.take i = (docs.take j).take i := by
    rw [List.take_take, Nat.min_eq_left h]
  rw [h1, List.map_take]
  set M := (docs.take j).map (fun d => d.length + delim.length) with hM
  have h2 : M.sum = (M.take i).sum + (M.drop i).sum := by
    rw [← List.sum_append, List.take_append_drop]
  omega

theorem getD_map_range (f : Nat → Nat) (n k : Nat) (h : k < n) :
    ((List.range n).map f).getD k 0 = f k := by
  rw [List.getD_eq_getElem _ _ (by simp [h])]
  simp

theorem boundary_of_append_valid {A B : List Nat} (hA : ValidUtf8 A) (hB : ValidUtf8 B) :
    isCharBoundary (A ++ B) A.length = true := by
  obtain ⟨ca, hca⟩ := Option.isSome_iff_exists.1 hA
  obtain ⟨cb, hcb⟩ := Option.isSome_iff_exists.1 hB
  have h := chunks_append hca hcb
  have hf : (ca ++ cb).flatten = A ++ B := chunks_flatten h
  have hAf : ca.flatten = A := chunks_flatten hca
  rw [← hf, ← hAf]
  exact (boundary_iff_split (ca ++ cb) (chunks_chunkOK h) _).2 ⟨ca, cb, rfl, rfl⟩

/-! ## Occurrence lists through chunk decompositions -/

theorem mem_occList {t q : List Nat} {p : Nat} :
    p ∈ occList t q ↔ matchAtB t q p = true := by
  unfold occList
  rw [List.mem_filter, List.mem_range]
  constructor
  · rintro ⟨-, h⟩; exact h
  · intro h
    refine ⟨?_, h⟩
    unfold matchAtB at h
    simp only [Bool.and_eq_true, decide_eq_true_eq] at h
    omega

theorem mem_occList_bound {t q : List Nat} {p : Nat} (h : p ∈ occList t q) :
    p + q.length ≤ t.length := by
  have h2 := mem_occList.1 h
  unfold matchAtB at h2
  simp only [Bool.and_eq_true, decide_eq_true_eq] at h2
  exact h2.1.1.1

theorem occList_nodup (t q : List Nat) : (occList t q).Nodup :=
  (List.nodup_range _).filter _

theorem matchAt_iff_chunks {t q : List Nat} {ct cq : List (List Nat)}
    (hct : chunks t = some ct) (hcq : chunks q = some cq) (p : Nat) :
    matchAtB t q p = true ↔ ∃ c1 cr, ct = c1 ++ cq ++ cr ∧ p = c1.flatten.length := by
  have ht : ValidUtf8 t := by unfold ValidUtf8; rw [hct]; rfl
  have hq : ValidUtf8 q := by unfold ValidUtf8; rw [hcq]; rfl
  have htf : ct.flatten = t := chunks_flatten hct
  have hqf : cq.flatten = q := chunks_flatten hcq
  have htOK := chunks_chunkOK hct
  have hqOK := chunks_chunkOK hcq
  constructor
  · intro h
    have hple : p ≤ t.length := by
      unfold matchAtB at h
      simp only [Bool.and_eq_true, decide_eq_true_eq] at h
      omega
    rw [matchAtB_eq_of_valid ht hq hple, Bool.and_eq_true] at h
    obtain ⟨hbp, hst⟩ := h
    rw [← htf] at hbp
    obtain ⟨c1, c2, rfl, rfl⟩ := (boundary_iff_split ct htOK _).1 hbp
    have hdrop : t.drop c1.flatten.length = c2.flatten := by
      rw [← htf, List.flatten_append]
      exact List.drop_left _ _
    rw [hdrop, ← hqf] at hst
    obtain ⟨cr, rfl⟩ := chunks_isPrefixChunks cq c2 hqOK
      (fun c hc => htOK c (List.mem_append.2 (Or.inr hc))) hst
    exact ⟨c1, cr, by rw [List.append_assoc], rfl⟩
  · rintro ⟨c1, cr, rfl, rfl⟩
    have hlens : t.length = c1.flatten.length + (cq.flatten.length + cr.flatten.length) := by
      rw [← htf]
      simp [List.flatten_append]
    have hple : c1.flatten.length ≤ t.length := by omega
    rw [matchAtB_eq_of_valid ht hq hple, Bool.and_eq_true]
    constructor
    · rw [← htf]
      exact (boundary_iff_split _ htOK _).2 ⟨c1, cq ++ cr, by rw [List.append_assoc], rfl⟩
    · have hdrop : t.drop c1.flatten.length = q ++ cr.flatten := by
        rw [← htf, List.append_assoc, List.flatten_append, List.drop_left,
          List.flatten_append, hqf]
      rw [hdrop]
      exact (startsWithB_iff _ _).2 ⟨cr.flatten, rfl⟩

theorem split_at_elem {α : Type} (q : α) :
    ∀ (cd : List α) (cm c1 c2 : List α), q ∉ cd →
      cd ++ q :: cm = c1 ++ q :: c2 →
      (c1 = cd ∧ c2 = cm) ∨ ∃ e, c1 = cd ++ q :: e ∧ cm = e ++ q :: c2 := by
  intro cd
  induction cd with
  | nil =>
    intro cm c1 c2 _ h
    cases c1 with
    | nil =>
      left
      simp only [List.nil_append, List.cons.injEq] at h
      exact ⟨rfl, h.2.symm⟩
    | cons y c1' =>
      right
      simp only [List.nil_append, List.cons_append, List.cons.injEq] at h
      exact ⟨c1', by rw [h.1]; rfl, h.2⟩
  | cons x cd' ih =>
    intro cm c1 c2 hq h
    have hq' : q ∉ cd' := fun hmem => hq (List.mem_cons_of_mem _ hmem)
    cases c1 with
    | nil =>
      exfalso
      simp only [List.cons_append, List.nil_append, List.cons.injEq] at h
      exact hq (h.1 ▸ List.mem_cons_self _ _)
    | cons y c1' =>
      simp only [List.cons_append, List.cons.injEq] at h
      obtain ⟨rfl, h2⟩ := h
      rcases ih cm c1' c2 hq' h2 with ⟨rfl, rfl⟩ | ⟨e, he1, he2⟩
      · left; exact ⟨rfl, rfl⟩
      · right
        exact ⟨e, by rw [he1, List.cons_append], he2⟩

theorem split_through_delim {cd cm cq : List (List Nat)} {delim : List Nat}
    (hqdel : delim ∉ cq) (hqne : cq ≠ []) {c1 cr : List (List Nat)}
    (h : cd ++ [delim] ++ cm = c1 ++ cq ++ cr) :
    (∃ a br, cd = a ++ cq ++ br ∧ c1.flatten.length = a.flatten.length)
      ∨ (∃ a br, cm = a ++ cq ++ br ∧
           c1.flatten.length = cd.flatten.length + delim.length + a.flatten.length) := by
  rw [List.append_assoc, List.append_assoc] at h
  rcases List.append_eq_append_iff.1 h with ⟨e, he1, he2⟩ | ⟨e, he1, he2⟩
  · -- c1 = cd ++ e and [delim] ++ cm = e ++ (cq ++ cr)
    cases e with
    | nil =>
      exfalso
      simp only [List.nil_append, List.singleton_append] at he2
      cases cq with
      | nil => exact hqne rfl
      | cons x cqt =>
        simp only [List.cons_append, List.cons.injEq] at he2
        apply hqdel
        rw [he2.1]
        exact List.mem_cons_self _ _
    | cons y e' =>
      right
      simp only [List.singleton_append, List.cons_append, List.nil_append,
        List.cons.injEq] at he2
      obtain ⟨rfl, he2⟩ := he2
      refine ⟨e', cr, ?_, ?_⟩
      · rw [he2, List.append_assoc]
      · rw [he1]
        simp only [List.flatten_append, List.flatten_cons, List.length_append]
        omega
  · -- cd = c1 ++ e and cq ++ cr = e ++ ([delim] ++ cm)
    left
    rcases List.append_eq_append_iff.1 he2 with ⟨f, hf1, hf2⟩ | ⟨f, hf1, hf2⟩
    · -- e = cq ++ f and cr = f ++ ([delim] ++ cm)
      refine ⟨c1, f, ?_, rfl⟩
      rw [he1, hf1, List.append_assoc]
    · -- cq = e ++ f and [delim] ++ cm = f ++ cr
      cases f with
      | nil =>
        rw [List.append_nil] at hf1
        refine ⟨c1, [], ?_, rfl⟩
        rw [he1, hf1, List.append_nil]
      | cons z f' =>
        exfalso
        simp only [List.singleton_append, List.cons_append, List.cons.injEq] at hf2
        apply hqdel
        rw [hf1, hf2.1]
        exact List.mem_append.2 (Or.inr (List.mem_cons_self _ _))

theorem occList_single_delim {d delim : List Nat} {cd : List (List Nat)}
    (hcd : chunks d = some cd) (hdelim : ChunkOK delim) (hnd : delim ∉ cd) :
    occList d delim = [] := by
  unfold occList
  rw [List.filter_eq_nil_iff]
  intro p _ hmat
  rw [matchAt_iff_chunks hcd (chunks_single_chunk hdelim) p] at hmat
  obtain ⟨c1, cr, heq, -⟩ := hmat
  apply hnd
  rw [heq]
  exact List.mem_append.2 (Or.inl (List.mem_append.2 (Or.inr (List.mem_singleton.2 rfl))))

theorem occList_join_cons_delim {d tl delim : List Nat}
    (hd : ValidUtf8 d) (htl : ValidUtf8 tl) (hdelim : ChunkOK delim)
    (hnd : containsChar d delim = false) :
    occList (d ++ delim ++ tl) delim
      = d.length :: (occList tl delim).map (· + (d.length + delim.length)) := by
  obtain ⟨cd, hcd⟩ := Option.isSome_iff_exists.1 hd
  obtain ⟨cm, hcm⟩ := Option.isSome_iff_exists.1 htl
  have hdel1 : chunks delim = some [delim] := chunks_single_chunk hdelim
  have hdf : cd.flatten = d := chunks_flatten hcd
  have hdl1 : 1 ≤ delim.length := List.length_pos.2 (chunkOK_ne_nil hdelim)
  have hndcd : delim ∉ cd := by
    unfold containsChar at hnd
    rw [hcd] at hnd
    simpa using hnd
  have hcT : chunks (d ++ delim ++ tl) = some (cd ++ [delim] ++ cm) :=
    chunks_append (chunks_append hcd hdel1) hcm
  have hmem : ∀ p, p ∈ occList (d ++ delim ++ tl) delim ↔
      p = d.length ∨ ∃ p2, p2 ∈ occList tl delim ∧ p2 + (d.length + delim.length) = p := by
    intro p
    rw [mem_occList, matchAt_iff_chunks hcT hdel1]
    constructor
    · rintro ⟨c1, cr, heq, rfl⟩
      have heq2 : cd ++ delim :: cm = c1 ++ delim :: cr := by
        simpa using heq
      rcases split_at_elem delim cd cm c1 cr hndcd heq2 with ⟨rfl, rfl⟩ | ⟨e, rfl, hcm2⟩
      · left; rw [hdf]
      · right
        refine ⟨e.flatten.length, ?_, ?_⟩
        · rw [mem_occList, matchAt_iff_chunks hcm hdel1]
          exact ⟨e, cr, by rw [hcm2, List.append_assoc, List.singleton_append], rfl⟩
        · simp only [List.flatten_append, List.flatten_cons, List.length_append]
          rw [hdf]
          omega
    · rintro (rfl | ⟨p2, hp2, rfl⟩)
      · exact ⟨cd, cm, rfl, by rw [hdf]⟩
      · rw [mem_occList, matchAt_iff_chunks hcm hdel1] at hp2
        obtain ⟨a, br, rfl, rfl⟩ := hp2
        refine ⟨cd ++ [delim] ++ a, br, ?_, ?_⟩
        · simp [List.append_assoc]
        · simp only [List.flatten_append, List.flatten_cons, List.flatten_nil,
            List.append_nil, List.length_append]
          rw [hdf]
          omega
  have hnodupR : (d.length
      :: (occList tl delim).map (· + (d.length + delim.length))).Nodup := by
    rw [List.nodup_cons]
    constructor
    · intro hmem2
      obtain ⟨p2, -, heq⟩ := List.mem_map.1 hmem2
      omega
    · exact (occList_nodup tl delim).map (fun x y hxy => by omega)
  have hsortedR : (d.length
      :: (occList tl delim).map (· + (d.length + delim.length))).Sorted (· ≤ ·) := by
    rw [List.sorted_cons]
    constructor
    · intro b hb
      obtain ⟨p2, -, heq⟩ := List.mem_map.1 hb
      omega
    · exact (occList_sorted tl delim).map _ (fun x y hxy => by omega)
  refine List.eq_of_perm_of_sorted
    ((List.perm_ext_iff_of_nodup (occList_nodup _ _) hnodupR).2 ?_)
    (occList_sorted _ _) hsortedR
  intro p
  rw [hmem p, List.mem_cons, List.mem_map]

theorem occList_join_cons {d tl q delim : List Nat}
    (hd : ValidUtf8 d) (htl : ValidUtf8 tl) (hdelim : ChunkOK delim)
    (hq : ValidUtf8 q) (hqd : containsChar q delim = false) (hqne : q ≠ []) :
    occList (d ++ delim ++ tl) q
      = occList d q ++ (occList tl q).map (· + (d.length + delim.length)) := by
  obtain ⟨cd, hcd⟩ := Option.isSome_iff_exists.1 hd
  obtain ⟨cm, hcm⟩ := Option.isSome_iff_exists.1 htl
  obtain ⟨cq, hcq⟩ := Option.isSome_iff_exists.1 hq
  have hdel1 : chunks delim = some [delim] := chunks_single_chunk hdelim
  have hdf : cd.flatten = d := chunks_flatten hcd
  have hqf : cq.flatten = q := chunks_flatten hcq
  have hdl1 : 1 ≤ delim.length := List.length_pos.2 (chunkOK_ne_nil hdelim)
  have hq1 : 1 ≤ q.length := List.length_pos.2 hqne
  have hcqne : cq ≠ [] := by
    intro h
    apply hqne
    rw [← hqf, h]
    rfl
  have hqdel : delim ∉ cq := by
    unfold containsChar at hqd
    rw [hcq] at hqd
    simpa using hqd
  have hcT : chunks (d ++ delim ++ tl) = some (cd ++ [delim] ++ cm) :=
    chunks_append (chunks_append hcd hdel1) hcm
  have hmem : ∀ p, p ∈ occList (d ++ delim ++ tl) q ↔
      p ∈ occList d q
        ∨ ∃ p2, p2 ∈ occList tl q ∧ p2 + (d.length + delim.length) = p := by
    intro p
    rw [mem_occList, matchAt_iff_chunks hcT hcq]
    constructor
    · rintro ⟨c1, cr, heq, rfl⟩
      rcases split_through_delim hqdel hcqne heq with ⟨a, br, hcd2, hlen⟩
        | ⟨a, br, hcm2, hlen⟩
      · left
        rw [mem_occList, matchAt_iff_chunks hcd hcq]
        exact ⟨a, br, hcd2, hlen⟩
      · right
        refine ⟨a.flatten.length, ?_, ?_⟩
        · rw [mem_occList, matchAt_iff_chunks hcm hcq]
          exact ⟨a, br, hcm2, rfl⟩
        · rw [hlen]
          rw [hdf]
          omega
    · rintro (hmem1 | ⟨p2, hp2, rfl⟩)
      · rw [mem_occList, matchAt_iff_chunks hcd hcq] at hmem1
        obtain ⟨a, br, rfl, rfl⟩ := hmem1
        refine ⟨a, br ++ [delim] ++ cm, ?_, rfl⟩
        simp [List.append_assoc]
      · rw [mem_occList, matchAt_iff_chunks hcm hcq] at hp2
        obtain ⟨a, br, rfl, rfl⟩ := hp2
        refine ⟨cd ++ [delim] ++ a, br, ?_, ?_⟩
        · simp [List.append_assoc]
        · simp only [List.flatten_append, List.flatten_cons, List.flatten_nil,
            List.append_nil, List.length_append]
          rw [hdf]
          omega
  have hnodupR : (occList d q
      ++ (occList tl q).map (· + (d.length + delim.length))).Nodup := by
    refine (occList_nodup d q).append
      ((occList_nodup tl q).map (fun x y hxy => by omega)) ?_
    intro a ha hb
    have h1 := mem_occList_bound ha
    obtain ⟨p2, -, heq⟩ := List.mem_map.1 hb
    omega
  have hsortedR : (occList d q
      ++ (occList tl q).map (· + (d.length + delim.length))).Sorted (· ≤ ·) := by
    rw [List.Sorted, List.pairwise_append]
    refine ⟨occList_sorted d q, (occList_sorted tl q).map _ (fun x y hxy => by omega), ?_⟩
    intro a ha b hb
    have h1 := mem_occList_bound ha
    obtain ⟨p2, -, heq⟩ := List.mem_map.1 hb
    omega
  refine List.eq_of_perm_of_sorted
    ((List.perm_ext_iff_of_nodup (occList_nodup _ _) hnodupR).2 ?_)
    (occList_sorted _ _) hsortedR
  intro p
  rw [hmem p, List.mem_append, List.mem_map]

theorem occ_join_delim {delim : List Nat} (hdelim : ChunkOK delim) :
    ∀ docs : List (List Nat), docs ≠ [] →
      (∀ d ∈ docs, ValidUtf8 d ∧ containsChar d delim = false) →
      occList (joinD docs delim) delim
        = (List.range (docs.length - 1)).map
            (fun k => docStart docs delim k + (docs.getD k []).length) := by
  intro docs
  induction docs with
  | nil => intro h; exact absurd rfl h
  | cons d rest ih =>
    intro _ hval
    have hd := hval d (List.mem_cons_self d rest)
    obtain ⟨cd, hcd⟩ := Option.isSome_iff_exists.1 hd.1
    have hndcd : delim ∉ cd := by
      have h2 := hd.2
      unfold containsChar at h2
      rw [hcd] at h2
      simpa using h2
    cases rest with
    | nil =>
      rw [joinD_single]
      simp only [List.length_cons, List.length_nil, Nat.zero_add, Nat.sub_self,
        List.range_zero, List.map_nil]
      exact occList_single_delim hcd hdelim hndcd
    | cons e rest' =>
      have hvalrest : ∀ x ∈ e :: rest', ValidUtf8 x ∧ containsChar x delim = false :=
        fun x hx => hval x (List.mem_cons_of_mem _ hx)
      rw [joinD_cons₂]
      rw [occList_join_cons_delim hd.1
        (joinD_valid hdelim _ (fun x hx => (hvalrest x hx).1)) hdelim hd.2]
      rw [ih (by simp) hvalrest]
      have hlen1 : (d :: e :: rest').length - 1 = ((e :: rest').length - 1) + 1 := by
        simp
      rw [hlen1, List.range_succ_eq_map, List.map_cons, List.map_map, List.map_map]
      have hhead : docStart (d :: e :: rest') delim 0
          + ((d :: e :: rest').getD 0 []).length = d.length := by
        rw [docStart_zero]
        simp
      rw [hhead]
      congr 1
      refine List.map_congr_left ?_
      intro k hk
      have hk2 : k < (e :: rest').length := by
        have := List.mem_range.1 hk
        simp at this ⊢
        omega
      simp only [Function.comp_apply]
      rw [docStart_cons_succ, List.getD_cons_succ]
      omega

theorem occ_join_q {delim q : List Nat} (hdelim : ChunkOK delim) (hq : ValidUtf8 q)
    (hqd : containsChar q delim = false) (hqne : q ≠ []) :
    ∀ docs : List (List Nat), docs ≠ [] → (∀ d ∈ docs, ValidUtf8 d) →
      occList (joinD docs delim) q
        = ((List.range docs.length).map fun k =>
            (occList (docs.getD k []) q).map (· + docStart docs delim k)).flatten := by
  intro docs
  induction docs with
  | nil => intro h; exact absurd rfl h
  | cons d rest ih =>
    intro _ hval
    have hd := hval d (List.mem_cons_self d rest)
    cases rest with
    | nil =>
      rw [joinD_single]
      have h1 : List.range 1 = [0] := rfl
      simp [h1, docStart_zero]
    | cons e rest' =>
      have hvalrest : ∀ x ∈ e :: rest', ValidUtf8 x :=
        fun x hx => hval x (List.mem_cons_of_mem _ hx)
      rw [joinD_cons₂]
      rw [occList_join_cons hd (joinD_valid hdelim _ hvalrest) hdelim hq hqd hqne]
      rw [ih (by simp) hvalrest]
      have hlen1 : (d :: e :: rest').length = (e :: rest').length + 1 := by simp
      rw [hlen1, List.range_succ_eq_map, List.map_cons, List.flatten_cons,
        List.map_map]
      congr 1
      · simp [docStart_zero]
      · rw [List.map_flatten, List.map_map]
        congr 1
        refine List.map_congr_left ?_
        intro k hk
        have hk2 : k < (e :: rest').length := List.mem_range.1 hk
        simp only [Function.comp_apply]
        rw [List.map_map, List.getD_cons_succ, docStart_cons_succ]
        refine List.map_congr_left ?_
        intro x _
        simp only [Function.comp_apply]
        omega

theorem defaultBuild_sa_eq {t sa : List Nat} (hlen : t.length ≤ u32Max)
    (hbuild : defaultBuildSA t = Except.ok sa) : sa = buildInMemory t t.length := by
  rw [defaultSA_eq t hlen, buildSuffixArray_inMemory t u32Max hlen] at hbuild
  exact (Except.ok.injEq _ _ ▸ hbuild).symm

theorem positionsRun_occ (t q : List Nat) (ht : ValidUtf8 t) (hq : ValidUtf8 q)
    (hq0 : q.length ≠ 0) :
    ∃ ps, positionsRun t (buildInMemory t t.length) q = some ps ∧
      ps.Perm (occList t q) ∧ sortNat ps = occList t q := by
  by_cases htriv : t.length = 0 ∨ q.length = 0 ∨ q.length > t.length
  · have hocc : occList t q = [] := by
      unfold occList
      rw [List.filter_eq_nil_iff]
      intro a _ hmat
      unfold matchAtB at hmat
      simp only [Bool.and_eq_true, decide_eq_true_eq] at hmat
      rcases htriv with h | h | h
      · omega
      · exact hq0 h
      · omega
    refine ⟨[], positionsRun_trivial _ _ _ htriv, ?_, ?_⟩
    · rw [hocc]
    · rw [hocc]
      rfl
  · push_neg at htriv
    obtain ⟨ht0, -, hql⟩ := htriv
    have hperm : ((buildInMemory t t.length).filter
        (fun i => startsWithB (t.drop i) q)).Perm (occList t q) := by
      unfold buildInMemory
      rw [List.filter_filter]
      refine ((suffixTableSA_perm t).filter _).trans ?_
      rw [occList_eq_filter ht hq hq0]
      rw [List.filter_congr (fun x hx => ?_)]
      have hxlen : x < t.length := List.mem_range.1 hx
      rw [Bool.eq_iff_iff]
      simp only [Bool.and_eq_true, decide_eq_true_eq]
      constructor
      · rintro ⟨h1, -, h3⟩; exact ⟨h3, h1⟩
      · rintro ⟨h1, h2⟩; exact ⟨h2, hxlen, h1⟩
    exact ⟨_, positionsRun_main t _ q (goodSA_build t) ht0 hq0 hql, hperm,
      List.eq_of_perm_of_sorted ((List.perm_insertionSort _ _).trans hperm)
        (List.sorted_insertionSort _ _) (occList_sorted t q)⟩

theorem calcOffsets_built {docs : List (List Nat)} {delim sa : List Nat}
    (hdelim : ChunkOK delim)
    (hdocs : ∀ d ∈ docs, ValidUtf8 d ∧ containsChar d delim = false)
    (hne : docs ≠ [])
    (hlen : (joinD docs delim).length ≤ u32Max)
    (hbuild : defaultBuildSA (joinD docs delim) = Except.ok sa) :
    calcOffsets (joinD docs delim) sa delim
      = some ((List.range docs.length).map (docStart docs delim)) := by
  have hsa := defaultBuild_sa_eq hlen hbuild
  subst hsa
  have hT : ValidUtf8 (joinD docs delim) :=
    joinD_valid hdelim docs (fun d hd => (hdocs d hd).1)
  have hdel : ValidUtf8 delim := validUtf8_of_chunkOK hdelim
  have hdl1 : 1 ≤ delim.length := List.length_pos.2 (chunkOK_ne_nil hdelim)
  obtain ⟨ps, hps, -, hsort⟩ :=
    positionsRun_occ (joinD docs delim) delim hT hdel (by omega)
  unfold calcOffsets
  rw [hps, Option.map_some']
  congr 1
  have hsort2 : List.insertionSort (· ≤ ·) ps = occList (joinD docs delim) delim := hsort
  rw [hsort2]
  rw [occ_join_delim hdelim docs hne hdocs]
  obtain ⟨n', hn⟩ : ∃ n', docs.length = n' + 1 := by
    cases docs with
    | nil => exact absurd rfl hne
    | cons a l => exact ⟨l.length, by simp⟩
  rw [hn, List.range_succ_eq_map, List.map_cons, List.map_map, List.map_map]
  rw [Nat.add_sub_cancel]
  have hhead : docStart docs delim 0 = 0 := docStart_zero docs delim
  rw [hhead]
  congr 1
  refine List.map_congr_left ?_
  intro k hk
  have hk2 : k < docs.length := by
    have := List.mem_range.1 hk
    omega
  simp only [Function.comp_apply]
  rw [docStart_succ delim k hk2]

theorem joinD_decompose {delim : List Nat} (hdelim : ChunkOK delim) :
    ∀ docs : List (List Nat), (∀ d ∈ docs, ValidUtf8 d) →
      ∀ k, k < docs.length →
      ∃ A B, joinD docs delim = A ++ (docs.getD k [] ++ B) ∧
        A.length = docStart docs delim k ∧ ValidUtf8 A ∧ ValidUtf8 B ∧
        (k = docs.length - 1 → B = []) := by
  intro docs
  induction docs with
  | nil => intro _ k hk; simp at hk
  | cons d rest ih =>
    intro hval k hk
    have hd : ValidUtf8 d := hval d (List.mem_cons_self d rest)
    cases rest with
    | nil =>
      have hk0 : k = 0 := by simp at hk; omega
      subst hk0
      refine ⟨[], [], ?_, by simp [docStart_zero], validUtf8_nil, validUtf8_nil,
        fun _ => rfl⟩
      rw [joinD_single]
      simp
    | cons e rest' =>
      cases k with
      | zero =>
        refine ⟨[], delim ++ joinD (e :: rest') delim, ?_,
          by simp [docStart_zero], validUtf8_nil, ?_, ?_⟩
        · rw [joinD_cons₂]
          simp [List.append_assoc]
        · exact validUtf8_append (validUtf8_of_chunkOK hdelim)
            (joinD_valid hdelim _ (fun x hx => hval x (List.mem_cons_of_mem _ hx)))
        · intro h
          exfalso
          simp at h
      | succ k' =>
        have hk' : k' < (e :: rest').length := by simp at hk ⊢; omega
        obtain ⟨A, B, hAB, hAlen, hAv, hBv, hlast⟩ :=
          ih (fun x hx => hval x (List.mem_cons_of_mem _ hx)) k' hk'
        refine ⟨d ++ delim ++ A, B, ?_, ?_, ?_, hBv, ?_⟩
        · rw [joinD_cons₂, hAB, List.getD_cons_succ]
          simp [List.append_assoc]
        · rw [docStart_cons_succ]
          simp only [List.length_append]
          omega
        · exact validUtf8_append (validUtf8_append hd (validUtf8_of_chunkOK hdelim)) hAv
        · intro h
          apply hlast
          simp at h ⊢
          omega

/-- Claim C6 is violated for the empty document list: the offsets table the
builder computes for zero documents still contains the initial 0, so
`num_docs` reports one document and `doc(0)` returns the empty string instead
of `None`. -/
theorem claim_C6_counterexample :
    ChunkOK [10] ∧
      defaultBuildSA (joinD [] [10]) = Except.ok [] ∧
      calcOffsets (joinD [] [10]) [] [10] = some [0] ∧
      numDocs [0] ≠ ([] : List (List Nat)).length ∧
      docRun (joinD [] [10]) [0] ([10] : List Nat).length 0 ≠ some none := by
  refine ⟨by decide, rfl, rfl, by decide, by decide⟩

/-- Claim C6, amended with a non-empty document list: over the joined text the
builder offsets make `num_docs` report the number of documents, `doc(k)`
return exactly document `k` for every in-range `k`, and `None` past the end. -/
theorem claim_C6_amended (docs : List (List Nat)) (delim sa : List Nat)
    (hdelim : ChunkOK delim)
    (hdocs : ∀ d ∈ docs, ValidUtf8 d ∧ containsChar d delim = false)
    (hne : docs ≠ [])
    (hlen : (joinD docs delim).length ≤ u32Max)
    (hbuild : defaultBuildSA (joinD docs delim) = Except.ok sa) :
    ∃ offsets, calcOffsets (joinD docs delim) sa delim = some offsets ∧
      numDocs offsets = docs.length ∧
      (∀ k, k < docs.length →
        docRun (joinD docs delim) offsets delim.length k
          = some (some (docs.getD k []))) ∧
      (∀ k, docs.length ≤ k →
        docRun (joinD docs delim) offsets delim.length k = some none) := by
  have hOlen : ((List.range docs.length).map (docStart docs delim)).length
      = docs.length := by simp
  refine ⟨(List.range docs.length).map (docStart docs delim),
    calcOffsets_built hdelim hdocs hne hlen hbuild, by simp [numDocs], ?_, ?_⟩
  · intro k hk
    have hdkv : ValidUtf8 (docs.getD k []) := by
      have hmem : docs.getD k [] ∈ docs := by
        rw [List.getD_eq_getElem docs [] hk]
        exact List.getElem_mem hk
      exact (hdocs _ hmem).1
    obtain ⟨A, B, hAB, hAlen, hAv, hBv, hlast⟩ :=
      joinD_decompose hdelim docs (fun d hd => (hdocs d hd).1) k hk
    have hT2 : joinD docs delim = (A ++ docs.getD k []) ++ B := by
      rw [hAB, List.append_assoc]
    have hTlen : (joinD docs delim).length
        = docStart docs delim k + (docs.getD k []).length + B.length := by
      rw [hAB]
      simp only [List.length_append]
      omega
    unfold docRun
    rw [if_neg (by rw [hOlen]; omega)]
    show (sliceRange (joinD docs delim)
        (((List.range docs.length).map (docStart docs delim)).getD k 0)
        (if k = ((List.range docs.length).map (docStart docs delim)).length - 1
          then (joinD docs delim).length
          else ((List.range docs.length).map (docStart docs delim)).getD (k + 1) 0
            - delim.length)).map some
      = some (some (docs.getD k []))
    rw [getD_map_range _ _ _ hk, hOlen]
    by_cases hklast : k = docs.length - 1
    · rw [if_pos hklast]
      have hB : B = [] := hlast hklast
      subst hB
      have hb1 : isCharBoundary (joinD docs delim) (docStart docs delim k) = true := by
        rw [hT2, List.append_nil, ← hAlen]
        exact boundary_of_append_valid hAv hdkv
      have hsr : sliceRange (joinD docs delim) (docStart docs delim k)
          (joinD docs delim).length = some (docs.getD k []) := by
        unfold sliceRange
        rw [if_pos ⟨by omega, hb1, boundary_at_length _⟩]
        unfold sliceB
        rw [List.take_length, hT2, List.append_nil, ← hAlen, List.drop_left]
      rw [hsr]
      rfl
    · rw [if_neg hklast]
      have hk1 : k + 1 < docs.length := by omega
      rw [getD_map_range _ _ _ hk1]
      have he : docStart docs delim (k + 1) - delim.length
          = docStart docs delim k + (docs.getD k []).length := by
        rw [docStart_succ delim k hk]
        omega
      rw [he]
      have hb1 : isCharBoundary (joinD docs delim) (docStart docs delim k) = true := by
        rw [hAB, ← hAlen]
        exact boundary_of_append_valid hAv (validUtf8_append hdkv hBv)
      have hb2 : isCharBoundary (joinD docs delim)
          (docStart docs delim k + (docs.getD k []).length) = true := by
        rw [hT2]
        have hlen2 : (A ++ docs.getD k []).length
            = docStart docs delim k + (docs.getD k []).length := by
          rw [List.length_append, hAlen]
        rw [← hlen2]
        exact boundary_of_append_valid (validUtf8_append hAv hdkv) hBv
      have hsr : sliceRange (joinD docs delim) (docStart docs delim k)
          (docStart docs delim k + (docs.getD k []).length)
          = some (docs.getD k []) := by
        unfold sliceRange
        rw [if_pos ⟨by omega, hb1, hb2⟩]
        unfold sliceB
        rw [hT2]
        rw [List.take_left' (by rw [List.length_append, hAlen])]
        rw [List.drop_left' hAlen]
      rw [hsr]
      rfl
  · intro k hk
    unfold docRun
    rw [if_pos (by rw [hOlen]; omega)]

/-- Witness for the amended C6 on two single-byte documents joined by "\n". -/
theorem claim_C6_amended_witness :
    ∃ offsets, calcOffsets (joinD [[97], [98]] [10]) [1, 0, 2] [10] = some offsets ∧
      numDocs offsets = ([[97], [98]] : List (List Nat)).length ∧
      (∀ k, k < ([[97], [98]] : List (List Nat)).length →
        docRun (joinD [[97], [98]] [10]) offsets ([10] : List Nat).length k
          = some (some ([[97], [98]].getD k []))) ∧
      (∀ k, ([[97], [98]] : List (List Nat)).length ≤ k →
        docRun (joinD [[97], [98]] [10]) offsets ([10] : List Nat).length k
          = some none) :=
  claim_C6_amended [[97], [98]] [10] [1, 0, 2] (by decide) (by decide) (by decide)
    (by decide) rfl

/-! ## doc_positions: mapping absolute hits to documents -/

theorem countP_range_le (f : Nat → Bool) :
    ∀ n k, k < n → (∀ j, j < n → (f j = true ↔ j ≤ k)) →
      (List.range n).countP f = k + 1 := by
  intro n
  induction n with
  | zero => intro k hk _; omega
  | succ m ih =>
    intro k hk hiff
    rw [List.range_succ, List.countP_append]
    by_cases hkm : k = m
    · subst hkm
      have hall : ∀ j ∈ List.range k, f j = true := by
        intro j hj
        have hj2 := List.mem_range.1 hj
        exact (hiff j (by omega)).2 (by omega)
      have hfm : f k = true := (hiff k (by omega)).2 (by omega)
      rw [List.countP_eq_length.2 hall, List.length_range]
      simp [List.countP_cons, hfm]
    · have hkm2 : k < m := by omega
      have hfm : f m = false := by
        cases hfm2 : f m with
        | false => rfl
        | true =>
          exfalso
          have := (hiff m (by omega)).1 hfm2
          omega
      rw [ih k hkm2 (fun j hj => hiff j (by omega))]
      simp [List.countP_cons, hfm]

theorem docIdFromPos_built {docs : List (List Nat)} {delim : List Nat}
    {k p : Nat} (hk : k < docs.length)
    (h1 : docStart docs delim k ≤ p)
    (h2 : p < docStart docs delim k + (docs.getD k []).length + delim.length) :
    docIdFromPos ((List.range docs.length).map (docStart docs delim)) p = some k := by
  unfold docIdFromPos
  have hcount : ((List.range docs.length).map (docStart docs delim)).countP
      (fun o => decide (o ≤ p)) = k + 1 := by
    rw [List.countP_map]
    refine countP_range_le _ docs.length k hk ?_
    intro j hj
    simp only [Function.comp_apply, decide_eq_true_eq]
    constructor
    · intro hle
      by_contra hgt
      push_neg at hgt
      have hmono := docStart_mono docs delim (show k + 1 ≤ j by omega)
      rw [docStart_succ delim k hk] at hmono
      omega
    · intro hjk
      exact le_trans (docStart_mono docs delim hjk) h1
  rw [hcount]
  simp

theorem mapM_eq_map_of_some {α β : Type} (f : α → Option β) (g : α → β) :
    ∀ l : List α, (∀ a ∈ l, f a = some (g a)) → l.mapM f = some (l.map g) := by
  intro l
  induction l with
  | nil => intro _; rfl
  | cons a l ih =>
    intro h
    rw [List.map_cons, List.mapM_cons, h a (List.mem_cons_self _ _),
      ih (fun x hx => h x (List.mem_cons_of_mem _ hx))]
    rfl

instance : IsTrans (Nat × Nat) pairLe :=
  ⟨by intro a b c h1 h2; unfold pairLe at h1 h2 ⊢; omega⟩

instance : IsTotal (Nat × Nat) pairLe :=
  ⟨by intro a b; unfold pairLe; omega⟩

instance : IsAntisymm (Nat × Nat) pairLe :=
  ⟨by
    intro a b h1 h2
    unfold pairLe at h1 h2
    have h3 : a.1 = b.1 ∧ a.2 = b.2 := by omega
    exact Prod.ext h3.1 h3.2⟩

theorem perDocOccs_sorted (docs : List (List Nat)) (q : List Nat) :
    (perDocOccs docs q).Sorted pairLe := by
  unfold perDocOccs
  rw [List.Sorted, List.pairwise_flatten]
  constructor
  · intro l hl
    obtain ⟨k, -, rfl⟩ := List.mem_map.1 hl
    rw [List.pairwise_map]
    exact (occList_sorted _ q).imp (fun h => Or.inr ⟨rfl, h⟩)
  · rw [List.pairwise_map]
    refine List.Pairwise.imp ?_ (List.pairwise_lt_range _)
    intro k1 k2 hk x hx y hy
    obtain ⟨p1, -, rfl⟩ := List.mem_map.1 hx
    obtain ⟨p2, -, rfl⟩ := List.mem_map.1 hy
    exact Or.inl hk

/-- Claim C4 is violated for the empty query: on the single document "a" with
delimiter "\n", `doc_positions("")` yields nothing (the underlying `positions`
returns the empty slice for an empty query), yet the claimed per-document
occurrence set of the empty query is non-empty. -/
theorem claim_C4_counterexample :
    containsChar [] [10] = false ∧
      defaultBuildSA (joinD [[97]] [10]) = Except.ok [0] ∧
      calcOffsets (joinD [[97]] [10]) [0] [10] = some [0] ∧
      docPositionsRun (joinD [[97]] [10]) [0] [0] [10] [] = some [] ∧
      perDocOccs [[97]] [] = [(0, 0), (0, 1)] ∧
      sortPairs [] ≠ perDocOccs [[97]] [] := by
  refine ⟨by decide, rfl, rfl, rfl, by decide, by decide⟩

/-- Claim C4, amended with a non-empty query: a query containing the delimiter
yields nothing; otherwise `doc_positions` never panics and yields, up to
sorting, exactly the per-document boundary-aligned occurrences as
(document id, position inside the document) pairs, and no yielded hit extends
past its document (so no hit crosses the following delimiter). -/
theorem claim_C4_amended (docs : List (List Nat)) (delim q sa offsets : List Nat)
    (hdelim : ChunkOK delim)
    (hdocs : ∀ d ∈ docs, ValidUtf8 d ∧ containsChar d delim = false)
    (hq : ValidUtf8 q) (hqne : q ≠ [])
    (hlen : (joinD docs delim).length ≤ u32Max)
    (hbuild : defaultBuildSA (joinD docs delim) = Except.ok sa)
    (hoff : calcOffsets (joinD docs delim) sa delim = some offsets) :
    (containsChar q delim = true →
      docPositionsRun (joinD docs delim) sa offsets delim q = some []) ∧
    (containsChar q delim = false →
      ∃ res, docPositionsRun (joinD docs delim) sa offsets delim q = some res ∧
        sortPairs res = perDocOccs docs q ∧
        ∀ e ∈ res, e.2 + q.length ≤ (docs.getD e.1 []).length) := by
  constructor
  · intro hcc
    unfold docPositionsRun
    rw [if_pos hcc]
  · intro hcc
    have hq1 : 1 ≤ q.length := List.length_pos.2 hqne
    have hsa := defaultBuild_sa_eq hlen hbuild
    subst hsa
    by_cases hnil : docs = []
    · subst hnil
      refine ⟨[], ?_, rfl, ?_⟩
      · unfold docPositionsRun
        rw [if_neg (by simp [hcc])]
        rw [positionsRun_trivial _ _ _ (Or.inl (by simp [joinD_nil]))]
        rfl
      · intro e he
        exact absurd he (List.not_mem_nil e)
    · have hT : ValidUtf8 (joinD docs delim) :=
        joinD_valid hdelim docs (fun d hd => (hdocs d hd).1)
      have hoff2 := calcOffsets_built hdelim hdocs hnil hlen hbuild
      rw [hoff2] at hoff
      have hoffeq : offsets = (List.range docs.length).map (docStart docs delim) :=
        (Option.some_inj.1 hoff).symm
      subst hoffeq
      obtain ⟨ps, hps, hperm, -⟩ :=
        positionsRun_occ (joinD docs delim) q hT hq (by omega)
      have hocc := occ_join_q hdelim hq hcc hqne docs hnil (fun d hd => (hdocs d hd).1)
      have hblock : ∀ p, p ∈ occList (joinD docs delim) q →
          ∃ k p2, k < docs.length ∧ p2 ∈ occList (docs.getD k []) q
            ∧ p2 + docStart docs delim k = p := by
        intro p hp
        rw [hocc, List.mem_flatten] at hp
        obtain ⟨l, hl, hpl⟩ := hp
        obtain ⟨k, hk, rfl⟩ := List.mem_map.1 hl
        obtain ⟨p2, hp2, hpeq⟩ := List.mem_map.1 hpl
        exact ⟨k, p2, List.mem_range.1 hk, hp2, hpeq⟩
      have hdip : ∀ k p2, k < docs.length → p2 ∈ occList (docs.getD k []) q →
          docIdFromPos ((List.range docs.length).map (docStart docs delim))
            (p2 + docStart docs delim k) = some k := by
        intro k p2 hk hp2
        have hb2 := mem_occList_bound hp2
        have hdl1 : 1 ≤ delim.length := List.length_pos.2 (chunkOK_ne_nil hdelim)
        exact docIdFromPos_built hk (by omega) (by omega)
      have hg : ∀ p ∈ ps,
          (docIdFromPos ((List.range docs.length).map (docStart docs delim)) p).map
            (fun k => (k, p - ((List.range docs.length).map
              (docStart docs delim)).getD k 0))
          = some (((docIdFromPos ((List.range docs.length).map
              (docStart docs delim)) p).map
            (fun k => (k, p - ((List.range docs.length).map
              (docStart docs delim)).getD k 0))).getD (0, 0)) := by
        intro p hp
        obtain ⟨k, p2, hk, hp2, hpeq⟩ := hblock p (hperm.mem_iff.1 hp)
        rw [← hpeq, hdip k p2 hk hp2]
        rfl
      have hmapm := mapM_eq_map_of_some _ _ ps hg
      have hmapocc : (occList (joinD docs delim) q).map
          (fun p => ((docIdFromPos ((List.range docs.length).map
              (docStart docs delim)) p).map
            (fun k => (k, p - ((List.range docs.length).map
              (docStart docs delim)).getD k 0))).getD (0, 0))
          = perDocOccs docs q := by
        rw [hocc, List.map_flatten, List.map_map]
        unfold perDocOccs
        congr 1
        refine List.map_congr_left ?_
        intro k hk
        have hk2 : k < docs.length := List.mem_range.1 hk
        simp only [Function.comp_apply]
        rw [List.map_map]
        refine List.map_congr_left ?_
        intro p2 hp2
        simp only [Function.comp_apply]
        show ((docIdFromPos ((List.range docs.length).map (docStart docs delim))
            (p2 + docStart docs delim k)).map
          (fun k' => (k', p2 + docStart docs delim k
            - ((List.range docs.length).map (docStart docs delim)).getD k' 0))).getD (0, 0)
          = (k, p2)
        rw [hdip k p2 hk2 hp2]
        simp only [Option.map_some', Option.getD_some]
        rw [getD_map_range _ _ _ hk2]
        simp [Nat.add_sub_cancel]
      have hresperm : (ps.map
          (fun p => ((docIdFromPos ((List.range docs.length).map
              (docStart docs delim)) p).map
            (fun k => (k, p - ((List.range docs.length).map
              (docStart docs delim)).getD k 0))).getD (0, 0))).Perm
          (perDocOccs docs q) := by
        rw [← hmapocc]
        exact hperm.map _
      have hsorteq : sortPairs (ps.map
          (fun p => ((docIdFromPos ((List.range docs.length).map
              (docStart docs delim)) p).map
            (fun k => (k, p - ((List.range docs.length).map
              (docStart docs delim)).getD k 0))).getD (0, 0)))
          = perDocOccs docs q :=
        List.eq_of_perm_of_sorted ((List.perm_insertionSort _ _).trans hresperm)
          (List.sorted_insertionSort _ _) (perDocOccs_sorted docs q)
      refine ⟨_, ?_, hsorteq, ?_⟩
      · unfold docPositionsRun
        rw [if_neg (by simp [hcc]), hps]
        simp only [Option.some_bind]
        exact hmapm
      · intro e he
        have he2 : e ∈ perDocOccs docs q := by
          rw [← hsorteq]
          exact (List.perm_insertionSort pairLe _).mem_iff.2 he
        unfold perDocOccs at he2
        rw [List.mem_flatten] at he2
        obtain ⟨l, hl, hel⟩ := he2
        obtain ⟨k, hk, rfl⟩ := List.mem_map.1 hl
        obtain ⟨p2, hp2, hpe⟩ := List.mem_map.1 hel
        have hb2 := mem_occList_bound hp2
        rw [← hpe]
        show p2 + q.length ≤ (docs.getD k []).length
        exact hb2

/-- Witness for the amended C4: documents "a","b", delimiter "\n", query "a". -/
theorem claim_C4_amended_witness :
    (containsChar [97] [10] = true →
      docPositionsRun (joinD [[97], [98]] [10]) [1, 0, 2] [0, 2] [10] [97]
        = some []) ∧
    (containsChar [97] [10] = false →
      ∃ res, docPositionsRun (joinD [[97], [98]] [10]) [1, 0, 2] [0, 2] [10] [97]
          = some res ∧
        sortPairs res = perDocOccs [[97], [98]] [97] ∧
        ∀ e ∈ res, e.2 + ([97] : List Nat).length
          ≤ ([[97], [98]].getD e.1 []).length) :=
  claim_C4_amended [[97], [98]] [10] [97] [1, 0, 2] [0, 2] (by decide) (by decide)
    (by decide) (by decide) (by decide) rfl rfl

end Suffine
